import Mathlib

/-!
# Verification of the GitHub-Actions pinning rewriter

Shallow embedding of `scripts/pin-github-actions.py`.

Conventions of the embedding:

* Text is modelled as `List Char`; a file's content is one `List Char` and
  `content.split('\n')` / `'\n'.join(...)` are `splitChar` / `joinChar`.
* The two regular expressions `version_pattern` and `sha_pattern` are
  deterministic (the greedy/lazy operators admit a single viable parse on
  every input, because the bordering character classes are disjoint), so
  they are embedded as deterministic recursive parsers returning the
  captured groups.  Character classes follow the ASCII reading of
  Python's `\s`, `\w`, `\d`; text is assumed ASCII.
* The remote lookup service (the GitHub REST API) is an abstract
  `GitHubService`.  A `none` answer models a non-success HTTP response;
  a `some` answer models a 200 response whose JSON carries the fields the
  script reads (`object.sha`, `object.type`, `ref`).
* Fallible lookups return `Option`, paired with the list of HTTP requests
  they issued; the line rewriter additionally reports which resolver
  functions it invoked.
-/

/-- Python `\s` (ASCII subset): the whitespace characters. -/
def isSpace (c : Char) : Bool :=
  c = ' ' || c = '\t' || c = '\n' || c = '\r' || c = '\x0b' || c = '\x0c'

/-- Python `[\w-]` (ASCII subset): letters, digits, underscore, hyphen. -/
def wordDash (c : Char) : Bool :=
  c.isAlphanum || c = '_' || c = '-'

/-- `[a-f0-9]`: a lowercase hexadecimal digit. -/
def isHexLower (c : Char) : Bool :=
  c.isDigit || ('a' ≤ c && c ≤ 'f')

/-- Characters a `v?\d+(\.\d+)*` reference can contain. -/
def isVersionChar (c : Char) : Bool :=
  c = 'v' || c.isDigit || c = '.'

/-- Python `str.split(sep)` for a one-character separator.  The recursive
result is never `[]`, so prepending to its head is prepending to the current
field. -/
def splitChar (sep : Char) : List Char → List (List Char)
  | [] => [[]]
  | c :: r =>
    let s := splitChar sep r
    if c = sep then [] :: s else (c :: s.headD []) :: s.tail

/-- Python `sep.join(parts)` for a one-character separator. -/
def joinChar (sep : Char) : List (List Char) → List Char
  | [] => []
  | [l] => l
  | l :: ls => l ++ sep :: joinChar sep ls

/-- Python `str.strip()` (ASCII whitespace). -/
def pyStrip (l : List Char) : List Char :=
  ((l.dropWhile isSpace).reverse.dropWhile isSpace).reverse

/-- Python `str.replace('refs/tags/', '')`: remove every occurrence of the
pattern, scanning left to right. -/
def stripRefsTags : List Char → List Char
  | 'r' :: 'e' :: 'f' :: 's' :: '/' :: 't' :: 'a' :: 'g' :: 's' :: '/' :: rest =>
    stripRefsTags rest
  | c :: rest => c :: stripRefsTags rest
  | [] => []

/-! ## The two line patterns

`version_pattern = (\s+uses:\s+)([\w-]+/[\w-]+(?:/[\w-]+)*?)@(v?\d+(?:\.\d+)*(?:\.\d+)?)\s*(#.*)?$`
`sha_pattern     = (\s+uses:\s+)([\w-]+/[\w-]+(?:/[\w-]+)*?)@([a-f0-9]{40})\s*(#.*)?$`

Both patterns are applied with `re.match` (anchored at the start) and end
with `$`; the lines they see contain no newline.  Each is embedded as a
parser that returns the regex groups and the remaining input of every
sub-pattern.  The lazy `(?:/[\w-]+)*?` stops at the first `@`, which is the
only possibility anyway since `@` is not in `[\w-]`. -/

/-- `(\s+uses:\s+)` — group 1 and the remaining input. -/
def parseUses (l : List Char) : Option (List Char × List Char) :=
  let w1 := l.takeWhile isSpace
  let r1 := l.dropWhile isSpace
  if w1.isEmpty then none
  else if r1.take 5 = ("uses:").data then
    let r2 := r1.drop 5
    let w2 := r2.takeWhile isSpace
    if w2.isEmpty then none
    else some (w1 ++ ("uses:").data ++ w2, r2.dropWhile isSpace)
  else none

/-- Scanner for the tail of the slug: `(?:/[\w-]+)*?@` plus the final part of
the second `[\w-]+`.  `seen` records whether at least one `[\w-]` character of
the current segment has been consumed.  Returns the consumed characters
(without the final `@`) and the input after the `@`. -/
def repoScan (seen : Bool) : List Char → Option (List Char × List Char)
  | [] => none
  | c :: r =>
    if c = '@' then
      if seen then some ([], r) else none
    else if c = '/' then
      if seen then
        match repoScan false r with
        | some (acc, rest) => some ('/' :: acc, rest)
        | none => none
      else none
    else if wordDash c then
      match repoScan true r with
      | some (acc, rest) => some (c :: acc, rest)
      | none => none
    else none

/-- `([\w-]+/[\w-]+(?:/[\w-]+)*?)@` — group 2 and the input after the `@`. -/
def parseRepo (l : List Char) : Option (List Char × List Char) :=
  let s1 := l.takeWhile wordDash
  let r1 := l.dropWhile wordDash
  if s1.isEmpty then none
  else
    match r1 with
    | '/' :: r2 =>
      match repoScan false r2 with
      | some (acc, rest) => some (s1 ++ '/' :: acc, rest)
      | none => none
    | _ => none

/-- `([a-f0-9]{40})` — group 3 of `sha_pattern`. -/
def parseSha (l : List Char) : Option (List Char × List Char) :=
  let s := l.take 40
  if s.length = 40 then
    if s.all isHexLower then some (s, l.drop 40) else none
  else none

/-- Greedy scanner for `(\d|\.\d)*` continuing a `\d+(\.\d+)*` chain after
its first digit: consumes digits, and a `.` only when a digit follows. -/
def digScan : List Char → List Char × List Char
  | [] => ([], [])
  | [c] => if c.isDigit then ([c], []) else ([], [c])
  | c :: d :: r =>
    if c.isDigit then
      let p := digScan (d :: r)
      (c :: p.1, p.2)
    else if c = '.' && d.isDigit then
      let p := digScan r
      ('.' :: d :: p.1, p.2)
    else ([], c :: d :: r)

/-- `(v?\d+(?:\.\d+)*(?:\.\d+)?)` — group 3 of `version_pattern` (the
trailing optional group is redundant: it is absorbed by the starred one).
A leading `v` must be followed by a digit; otherwise the whole pattern
fails, exactly as the backtracking engine does. -/
def parseVersionRef (l : List Char) : Option (List Char × List Char) :=
  match l with
  | [] => none
  | [c] =>
    if c = 'v' then none
    else if c.isDigit then some ([c], [])
    else none
  | c :: d :: r2 =>
    if c = 'v' then
      if d.isDigit then
        let p := digScan r2
        some ('v' :: d :: p.1, p.2)
      else none
    else if c.isDigit then
      let p := digScan (d :: r2)
      some (c :: p.1, p.2)
    else none

/-- `\s*(#.*)?$` — the uncaptured separating whitespace and group 4. -/
def parseTail (l : List Char) : Option (List Char × Option (List Char)) :=
  let w := l.takeWhile isSpace
  let r := l.dropWhile isSpace
  match r with
  | [] => some (w, none)
  | '#' :: _ => some (w, some r)
  | _ => none

/-- The captured groups of a matched line.  `pre` is group 1, `repo`
group 2, `ref` group 3, `comment` group 4; `ws` is the whitespace matched by
the uncaptured `\s*` between the reference and the comment. -/
structure LineMatch where
  pre : List Char
  repo : List Char
  ref : List Char
  ws : List Char
  comment : Option (List Char)
deriving Repr, DecidableEq

/-- `sha_pattern.match(line)`. -/
def parseShaLine (l : List Char) : Option LineMatch :=
  match parseUses l with
  | none => none
  | some (p, r1) =>
    match parseRepo r1 with
    | none => none
    | some (rp, r2) =>
      match parseSha r2 with
      | none => none
      | some (s, r3) =>
        match parseTail r3 with
        | none => none
        | some (w, c) => some ⟨p, rp, s, w, c⟩

/-- `version_pattern.match(line)`. -/
def parseVersionLine (l : List Char) : Option LineMatch :=
  match parseUses l with
  | none => none
  | some (p, r1) =>
    match parseRepo r1 with
    | none => none
    | some (rp, r2) =>
      match parseVersionRef r2 with
      | none => none
      | some (s, r3) =>
        match parseTail r3 with
        | none => none
        | some (w, c) => some ⟨p, rp, s, w, c⟩

/-! ## The remote lookup service -/

/-- One element of the `GET /repos/{o}/git/refs/tags` response:
`{ref, object.sha, object.type}`. -/
structure TagEntry where
  ref : List Char
  sha : List Char
  typ : List Char
deriving Repr, DecidableEq

/-- The remote lookup service.  `none` models a non-success response; a
`some` models a success response carrying the JSON fields the script
reads. -/
structure GitHubService where
  /-- `GET /repos/{ownerRepo}/git/refs/tags/{tag}` → `object.sha`, `object.type`. -/
  tagRef : List Char → List Char → Option (List Char × List Char)
  /-- `GET /repos/{ownerRepo}/git/tags/{sha}` → `object.sha`. -/
  tagObj : List Char → List Char → Option (List Char)
  /-- `GET /repos/{ownerRepo}/git/refs/tags` → the list of tag entries. -/
  tagsList : List Char → Option (List TagEntry)

/-- An HTTP request issued by the script. -/
inductive Request where
  | refsTag : List Char → List Char → Request
  | tagsObj : List Char → List Char → Request
  | refsList : List Char → Request
deriving Repr, DecidableEq

/-- `owner/repo` from a possibly longer slug: the first two `/`-separated
segments, or `none` when fewer than two exist. -/
def ownerRepo (repo : List Char) : Option (List Char) :=
  match splitChar '/' repo with
  | p0 :: p1 :: _ => some (p0 ++ '/' :: p1)
  | _ => none

/-- `get_commit_sha_for_tag(repo, tag)`: resolve a tag to the sha it points
to, dereferencing an annotated-tag object once.  Returns the result and the
requests issued.  Note the source keeps the first lookup's sha when the
dereferencing request is non-successful. -/
def get_commit_sha_for_tag (svc : GitHubService) (repo tag : List Char) :
    Option (List Char) × List Request :=
  match ownerRepo repo with
  | none => (none, [])
  | some orp =>
    match svc.tagRef orp tag with
    | none => (none, [Request.refsTag orp tag])
    | some (sha, typ) =>
      if typ = ("tag").data then
        match svc.tagObj orp sha with
        | some sha2 => (some sha2, [Request.refsTag orp tag, Request.tagsObj orp sha])
        | none => (some sha, [Request.refsTag orp tag, Request.tagsObj orp sha])
      else (some sha, [Request.refsTag orp tag])

/-- The loop body of `get_version_for_commit_sha`: the tag's name with every
`refs/tags/` removed, and its sha after the one-level dereference (kept
undereferenced when the dereferencing request is non-successful). -/
def derefEntry (svc : GitHubService) (orp : List Char) (e : TagEntry) :
    (List Char × List Char) × List Request :=
  let name := stripRefsTags e.ref
  if e.typ = ("tag").data then
    match svc.tagObj orp e.sha with
    | some sha2 => ((name, sha2), [Request.tagsObj orp e.sha])
    | none => ((name, e.sha), [Request.tagsObj orp e.sha])
  else ((name, e.sha), [])

/-- The `matching_tags` accumulation: names of the tags whose (dereferenced)
sha equals `sha`, in list order, with the requests issued. -/
def collectMatching (svc : GitHubService) (orp sha : List Char) :
    List TagEntry → List (List Char) × List Request
  | [] => ([], [])
  | e :: rest =>
    let d := derefEntry svc orp e
    let m := collectMatching svc orp sha rest
    (if d.1.2 = sha then d.1.1 :: m.1 else m.1, d.2 ++ m.2)

/-- `re.match(r'^v\d+(\.\d+)*$', t)`: the version-label pattern, anchored on
both sides. -/
def isVersionTag (t : List Char) : Bool :=
  match t with
  | 'v' :: d :: r => d.isDigit && (digScan r).2.isEmpty
  | _ => false

/-- Number of components: Python `len(x.split('.'))`. -/
def numComponents (t : List Char) : Nat :=
  (splitChar '.' t).length

/-- Python string `<`: lexicographic comparison by code point. -/
def lexLt : List Char → List Char → Bool
  | [], [] => false
  | [], _ :: _ => true
  | _ :: _, [] => false
  | a :: as, b :: bs => if a = b then lexLt as bs else decide (a < b)

/-- Python tuple comparison of the sort key `(len(x.split('.')), x)`. -/
def keyLt (a b : List Char) : Bool :=
  if numComponents a < numComponents b then true
  else if numComponents a = numComponents b then lexLt a b
  else false

/-- One step of a running minimum under `keyLt`. -/
def selStep (b t : List Char) : List Char :=
  if keyLt t b then t else b

/-- `version_tags.sort(key=lambda x: (len(x.split('.')), x)); version_tags[0]`:
the head of the stably sorted list, i.e. the first element attaining the
minimal key (the key determines the string, so any minimum is the same
string). -/
def selectBest : List (List Char) → Option (List Char)
  | [] => none
  | x :: xs => some (xs.foldl selStep x)

/-- `get_version_for_commit_sha(repo, sha)`: the best version label currently
pointing to `sha`, and the requests issued. -/
def get_version_for_commit_sha (svc : GitHubService) (repo sha : List Char) :
    Option (List Char) × List Request :=
  match ownerRepo repo with
  | none => (none, [])
  | some orp =>
    match svc.tagsList orp with
    | none => (none, [Request.refsList orp])
    | some tags =>
      let m := collectMatching svc orp sha tags
      match m.1 with
      | [] => (none, Request.refsList orp :: m.2)
      | m0 :: _ =>
        match selectBest (m.1.filter isVersionTag) with
        | some v => (some v, Request.refsList orp :: m.2)
        | none => (some m0, Request.refsList orp :: m.2)

/-! ## The line rewriter -/

/-- A resolver invocation performed by the line rewriter. -/
inductive Call where
  | refResolve : List Char → List Char → Call
  | labelResolve : List Char → List Char → Call
deriving Repr, DecidableEq

/-- `not comment or not comment.strip() or comment.strip() == '#'`:
the trailing comment is absent, whitespace-only, or a bare `#`. -/
def commentBare : Option (List Char) → Bool
  | none => true
  | some c => (pyStrip c).isEmpty || pyStrip c = ("#").data

/-- The per-line body of `process_workflow_file`: the rewritten line, the
changed flag, and the resolver invocations performed. -/
def processLine (svc : GitHubService) (line : List Char) :
    List Char × Bool × List Call :=
  match parseShaLine line with
  | some m =>
    if commentBare m.comment then
      match (get_version_for_commit_sha svc m.repo m.ref).1 with
      | some version =>
        (m.pre ++ m.repo ++ '@' :: (m.ref ++ ("  # ").data ++ version), true,
          [Call.labelResolve m.repo m.ref])
      | none => (line, false, [Call.labelResolve m.repo m.ref])
    else (line, false, [])
  | none =>
    match parseVersionLine line with
    | some m =>
      match (get_commit_sha_for_tag svc m.repo m.ref).1 with
      | some sha =>
        (m.pre ++ m.repo ++ '@' ::
            (sha ++ (if (m.comment.getD []).isEmpty
                     then ("  # ").data ++ m.ref
                     else m.comment.getD [])), true,
          [Call.refResolve m.repo m.ref])
      | none => (line, false, [Call.refResolve m.repo m.ref])
    | none => (line, false, [])

/-- `process_workflow_file`: split into lines, rewrite each line, return the
joined result and the number of changed lines. -/
def process_workflow_file (svc : GitHubService) (content : List Char) :
    List Char × Nat :=
  let outs := (splitChar '\n' content).map (processLine svc)
  (joinChar '\n' (outs.map (fun o => o.1)), (outs.filter (fun o => o.2.1)).length)

/-- Every resolver lookup attempted while processing `content` succeeded. -/
def lineResolutionsOk (svc : GitHubService) (line : List Char) : Bool :=
  match parseShaLine line with
  | some m =>
    if commentBare m.comment then
      (get_version_for_commit_sha svc m.repo m.ref).1.isSome
    else true
  | none =>
    match parseVersionLine line with
    | some m => (get_commit_sha_for_tag svc m.repo m.ref).1.isSome
    | none => true

/-- Every resolver lookup attempted on any line of `content` succeeded. -/
def allResolutionsOk (svc : GitHubService) (content : List Char) : Bool :=
  (splitChar '\n' content).all (lineResolutionsOk svc)

/-- No version-tag line of the file carries a bare trailing comment (a `#`
followed only by whitespace). -/
def lineNoBareVersionComment (line : List Char) : Bool :=
  match parseShaLine line with
  | some _ => true
  | none =>
    match parseVersionLine line with
    | some m => m.comment.isNone || !commentBare m.comment
    | none => true

/-- `lineNoBareVersionComment` on every line of the file. -/
def noBareVersionComments (content : List Char) : Bool :=
  (splitChar '\n' content).all lineNoBareVersionComment

/-! ## Concrete data for the concrete-case theorems -/

/-- A commit identifier: forty lowercase `a`s. -/
def shaA : List Char := List.replicate 40 'a'

/-- A reference of forty decimal digits — also forty valid hex characters. -/
def shaZeros : List Char := List.replicate 40 '0'

/-- An annotated-tag object id. -/
def tagObjId : List Char := List.replicate 40 't'

/-- A service with one tag `v1` on `a/b` pointing directly at `shaA`. -/
def svcDemo : GitHubService where
  tagRef := fun orp tag =>
    if orp = ("a/b").data ∧ tag = ("v1").data then some (shaA, ("commit").data)
    else none
  tagObj := fun _ _ => none
  tagsList := fun orp =>
    if orp = ("a/b").data then
      some [⟨("refs/tags/v1").data, shaA, ("commit").data⟩]
    else none

/-- A service with tag `v4` on `actions/checkout` pointing directly at `shaA`. -/
def svcCheckout : GitHubService where
  tagRef := fun orp tag =>
    if orp = ("actions/checkout").data ∧ tag = ("v4").data then
      some (shaA, ("commit").data)
    else none
  tagObj := fun _ _ => none
  tagsList := fun _ => none

/-- A service whose tag `v1` on `a/b` is an annotated-tag object and whose
dereferencing endpoint always answers non-successfully. -/
def svcDeref : GitHubService where
  tagRef := fun orp tag =>
    if orp = ("a/b").data ∧ tag = ("v1").data then some (tagObjId, ("tag").data)
    else none
  tagObj := fun _ _ => none
  tagsList := fun _ => none

/-- A service carrying the labels `v4.0.0`, `v4`, `v4.0` on `a/b`, all
pointing directly at `shaA`. -/
def svcTags : GitHubService where
  tagRef := fun _ _ => none
  tagObj := fun _ _ => none
  tagsList := fun orp =>
    if orp = ("a/b").data then
      some [⟨("refs/tags/v4.0.0").data, shaA, ("commit").data⟩,
        ⟨("refs/tags/v4").data, shaA, ("commit").data⟩,
        ⟨("refs/tags/v4.0").data, shaA, ("commit").data⟩]
    else none

/-- The empty service: every request is non-successful. -/
def svcNone : GitHubService where
  tagRef := fun _ _ => none
  tagObj := fun _ _ => none
  tagsList := fun _ => none

/-! ## Generic list helpers -/

theorem takeWhile_append_all {p : Char → Bool} {l1 l2 : List Char}
    (h1 : l1.all p = true) (h2 : ∀ c, l2.head? = some c → p c = false) :
    (l1 ++ l2).takeWhile p = l1 := by
  induction l1 with
  | nil =>
    cases l2 with
    | nil => rfl
    | cons c r => simp [List.takeWhile_cons, h2 c rfl]
  | cons a l1 ih =>
    simp only [List.all_cons, Bool.and_eq_true] at h1
    simp [List.takeWhile_cons, h1.1, ih h1.2]

theorem dropWhile_append_all {p : Char → Bool} {l1 l2 : List Char}
    (h1 : l1.all p = true) (h2 : ∀ c, l2.head? = some c → p c = false) :
    (l1 ++ l2).dropWhile p = l2 := by
  induction l1 with
  | nil =>
    cases l2 with
    | nil => rfl
    | cons c r => simp [List.dropWhile_cons, h2 c rfl]
  | cons a l1 ih =>
    simp only [List.all_cons, Bool.and_eq_true] at h1
    simp [List.dropWhile_cons, h1.1, ih h1.2]

theorem take_len_append {α : Type} (l1 l2 : List α) : (l1 ++ l2).take l1.length = l1 :=
  List.take_left l1 l2

theorem drop_len_append {α : Type} (l1 l2 : List α) : (l1 ++ l2).drop l1.length = l2 :=
  List.drop_left l1 l2

theorem wordDash_not_space {c : Char} (h : wordDash c = true) : isSpace c = false := by
  by_contra hs
  rw [Bool.not_eq_false] at hs
  simp only [isSpace, Bool.or_eq_true, decide_eq_true_eq] at hs
  rcases hs with ((((rfl | rfl) | rfl) | rfl) | rfl) | rfl <;> exact absurd h (by decide)

theorem space_not_hex {c : Char} (h : isSpace c = true) : isHexLower c = false := by
  simp only [isSpace, Bool.or_eq_true, decide_eq_true_eq] at h
  rcases h with ((((rfl | rfl) | rfl) | rfl) | rfl) | rfl <;> decide

theorem hex_version_digit {c : Char} (h1 : isHexLower c = true)
    (h2 : isVersionChar c = true) : c.isDigit = true := by
  simp only [isVersionChar, Bool.or_eq_true, decide_eq_true_eq] at h2
  rcases h2 with (rfl | hd) | rfl
  · exact absurd h1 (by decide)
  · exact hd
  · exact absurd h1 (by decide)

/-! ## splitChar / joinChar -/

theorem splitChar_ne_nil (sep : Char) (l : List Char) : splitChar sep l ≠ [] := by
  cases l with
  | nil => simp [splitChar]
  | cons c r => by_cases hc : c = sep <;> simp [splitChar, hc]

theorem mem_splitChar_not_sep {sep : Char} {l : List Char} :
    ∀ x ∈ splitChar sep l, sep ∉ x := by
  induction l with
  | nil =>
    intro x hx
    simp only [splitChar, List.mem_singleton] at hx
    subst hx
    simp
  | cons c r ih =>
    intro x hx
    simp only [splitChar] at hx
    cases hs : splitChar sep r with
    | nil => exact absurd hs (splitChar_ne_nil sep r)
    | cons s rest =>
      rw [hs] at hx
      by_cases hc : c = sep
      · rw [if_pos hc] at hx
        rcases List.mem_cons.mp hx with rfl | hx
        · simp
        · exact ih x (by rw [hs]; exact hx)
      · rw [if_neg hc] at hx
        simp only [List.headD_cons, List.tail_cons] at hx
        rcases List.mem_cons.mp hx with rfl | hx
        · intro hmem
          rcases List.mem_cons.mp hmem with rfl | hmem
          · exact hc rfl
          · exact ih s (by rw [hs]; exact List.mem_cons_self s rest) hmem
        · exact ih x (by rw [hs]; exact List.mem_cons_of_mem s hx)

theorem splitChar_no_sep {sep : Char} {l : List Char} (h : sep ∉ l) :
    splitChar sep l = [l] := by
  induction l with
  | nil => rfl
  | cons c r ih =>
    have hc : c ≠ sep := fun hcc => h (hcc ▸ List.mem_cons_self c r)
    have hr : sep ∉ r := fun hm => h (List.mem_cons_of_mem c hm)
    simp only [splitChar, ih hr, if_neg hc]
    rfl

theorem splitChar_append_sep {sep : Char} {l t : List Char} (h : sep ∉ l) :
    splitChar sep (l ++ sep :: t) = l :: splitChar sep t := by
  induction l with
  | nil =>
    simp [splitChar]
  | cons c r ih =>
    have hc : c ≠ sep := fun hcc => h (hcc ▸ List.mem_cons_self c r)
    have hr : sep ∉ r := fun hm => h (List.mem_cons_of_mem c hm)
    simp only [List.cons_append, splitChar, List.append_eq, ih hr, if_neg hc]
    rfl

theorem splitChar_joinChar {sep : Char} {ls : List (List Char)}
    (h : ∀ x ∈ ls, sep ∉ x) (hne : ls ≠ []) :
    splitChar sep (joinChar sep ls) = ls := by
  induction ls with
  | nil => exact absurd rfl hne
  | cons l ls ih =>
    cases ls with
    | nil => exact splitChar_no_sep (h l (List.mem_cons_self l []))
    | cons l2 ls2 =>
      have ihh := ih (fun x hx => h x (List.mem_cons_of_mem l hx)) (by intro hh; cases hh)
      have hj : joinChar sep (l :: l2 :: ls2) = l ++ sep :: joinChar sep (l2 :: ls2) := rfl
      rw [hj, splitChar_append_sep (h l (List.mem_cons_self l _)), ihh]

/-! ## pyStrip -/

theorem pyStrip_space_append {w t : List Char} (hw : w.all isSpace = true) :
    pyStrip (w ++ t) = pyStrip t := by
  unfold pyStrip
  rw [List.dropWhile_append_of_pos]
  intro a ha
  exact List.all_eq_true.mp hw a ha

theorem pyStrip_all_space {w : List Char} (hw : w.all isSpace = true) :
    pyStrip w = [] := by
  have : pyStrip (w ++ []) = pyStrip [] := pyStrip_space_append hw
  simpa [pyStrip] using this

theorem pyStrip_hash_tail {v : List Char} (hne : v ≠ [])
    (hv : v.all (fun c => !isSpace c) = true) :
    pyStrip ('#' :: ' ' :: v) = '#' :: ' ' :: v := by
  unfold pyStrip
  have h1 : List.dropWhile isSpace ('#' :: ' ' :: v) = '#' :: ' ' :: v := by
    rw [List.dropWhile_cons, if_neg (by decide)]
  rw [h1]
  cases hr : v.reverse with
  | nil => exact absurd (List.reverse_eq_nil_iff.mp hr) hne
  | cons c t =>
    have hc : c ∈ v := by
      have : c ∈ v.reverse := hr ▸ List.mem_cons_self c t
      exact List.mem_reverse.mp this
    have hcs : isSpace c = false := by
      have := List.all_eq_true.mp hv c hc
      simpa using this
    have h2 : ('#' :: ' ' :: v).reverse = c :: (t ++ [' ', '#']) := by
      rw [show ('#' :: ' ' :: v).reverse = v.reverse ++ [' ', '#'] by simp, hr]
      rfl
    rw [h2, List.dropWhile_cons, if_neg (by simp [hcs]), ← h2, List.reverse_reverse]

theorem pyStrip_hash_ne_nil (cs : List Char) : pyStrip ('#' :: cs) ≠ [] := by
  unfold pyStrip
  intro h
  rw [List.reverse_eq_nil_iff] at h
  have h3 : List.dropWhile isSpace ('#' :: cs) = '#' :: cs := by
    rw [List.dropWhile_cons, if_neg (by decide)]
  rw [h3] at h
  have h2 := List.dropWhile_eq_nil_iff.mp h
  have : isSpace '#' = true := by
    have := h2 '#' (by simp)
    simpa using this
  exact absurd this (by decide)

/-! ## Parser inversion and rebuild lemmas -/

theorem head_dropWhile_false {p : Char → Bool} (l : List Char) :
    ∀ c, (l.dropWhile p).head? = some c → p c = false := by
  intro c hc
  have := List.head?_dropWhile_not p l
  rw [hc] at this
  exact this

theorem wordDash_ne_at {c : Char} (h : wordDash c = true) : c ≠ '@' := by
  rintro rfl
  exact absurd h (by decide)

theorem wordDash_ne_slash {c : Char} (h : wordDash c = true) : c ≠ '/' := by
  rintro rfl
  exact absurd h (by decide)

theorem parseUses_inv {l p r : List Char} (h : parseUses l = some (p, r)) :
    ∃ w1 w2, w1.all isSpace = true ∧ w2.all isSpace = true ∧ w1 ≠ [] ∧ w2 ≠ [] ∧
      p = w1 ++ ("uses:").data ++ w2 ∧ l = p ++ r ∧
      (∀ c, r.head? = some c → isSpace c = false) := by
  simp only [parseUses] at h
  by_cases c1 : (l.takeWhile isSpace).isEmpty = true
  · rw [if_pos c1] at h
    cases h
  · rw [if_neg c1] at h
    by_cases c2 : (l.dropWhile isSpace).take 5 = ("uses:").data
    · rw [if_pos c2] at h
      by_cases c3 : (((l.dropWhile isSpace).drop 5).takeWhile isSpace).isEmpty = true
      · rw [if_pos c3] at h
        cases h
      · rw [if_neg c3] at h
        simp only [Option.some.injEq, Prod.mk.injEq] at h
        obtain ⟨hp, hr⟩ := h
        refine ⟨l.takeWhile isSpace, ((l.dropWhile isSpace).drop 5).takeWhile isSpace,
          List.all_takeWhile, List.all_takeWhile, ?_, ?_, hp.symm, ?_, ?_⟩
        · intro hnil
          rw [hnil] at c1
          exact c1 rfl
        · intro hnil
          rw [hnil] at c3
          exact c3 rfl
        · rw [hp.symm, hr.symm]
          calc l = l.takeWhile isSpace ++ l.dropWhile isSpace :=
                (List.takeWhile_append_dropWhile isSpace l).symm
            _ = l.takeWhile isSpace ++
                ((l.dropWhile isSpace).take 5 ++ (l.dropWhile isSpace).drop 5) :=
                congrArg (l.takeWhile isSpace ++ ·)
                  (List.take_append_drop 5 (l.dropWhile isSpace)).symm
            _ = l.takeWhile isSpace ++
                (("uses:").data ++ (l.dropWhile isSpace).drop 5) := by rw [c2]
            _ = l.takeWhile isSpace ++ (("uses:").data ++
                (((l.dropWhile isSpace).drop 5).takeWhile isSpace ++
                  ((l.dropWhile isSpace).drop 5).dropWhile isSpace)) :=
                congrArg (fun x => l.takeWhile isSpace ++ (("uses:").data ++ x))
                  (List.takeWhile_append_dropWhile isSpace
                    ((l.dropWhile isSpace).drop 5)).symm
            _ = (l.takeWhile isSpace ++ ("uses:").data ++
                  ((l.dropWhile isSpace).drop 5).takeWhile isSpace) ++
                ((l.dropWhile isSpace).drop 5).dropWhile isSpace := by
                simp [List.append_assoc]
        · rw [hr.symm]
          exact head_dropWhile_false _
    · rw [if_neg c2] at h
      cases h

theorem parseUses_build {w1 w2 r' : List Char}
    (a1 : w1.all isSpace = true) (a2 : w2.all isSpace = true)
    (n1 : w1 ≠ []) (n2 : w2 ≠ [])
    (hr' : ∀ c, r'.head? = some c → isSpace c = false) :
    parseUses (w1 ++ ("uses:").data ++ w2 ++ r') =
      some (w1 ++ ("uses:").data ++ w2, r') := by
  have hshape : w1 ++ ("uses:").data ++ w2 ++ r' =
      w1 ++ (("uses:").data ++ (w2 ++ r')) := by
    simp [List.append_assoc]
  have htw : (w1 ++ (("uses:").data ++ (w2 ++ r'))).takeWhile isSpace = w1 :=
    takeWhile_append_all a1 (by rintro c ⟨rfl⟩; decide)
  have hdw : (w1 ++ (("uses:").data ++ (w2 ++ r'))).dropWhile isSpace =
      ("uses:").data ++ (w2 ++ r') :=
    dropWhile_append_all a1 (by rintro c ⟨rfl⟩; decide)
  have htk : (("uses:").data ++ (w2 ++ r')).take 5 = ("uses:").data := by
    have := take_len_append (("uses:").data) (w2 ++ r')
    simpa using this
  have hdr : (("uses:").data ++ (w2 ++ r')).drop 5 = w2 ++ r' := by
    have := drop_len_append (("uses:").data) (w2 ++ r')
    simpa using this
  have htw2 : (w2 ++ r').takeWhile isSpace = w2 := takeWhile_append_all a2 hr'
  have hdw2 : (w2 ++ r').dropWhile isSpace = r' := dropWhile_append_all a2 hr'
  rw [hshape]
  simp only [parseUses, htw, hdw, htk, hdr, htw2, hdw2]
  rw [if_neg (by simpa [List.isEmpty_iff] using n1), if_pos trivial,
    if_neg (by simpa [List.isEmpty_iff] using n2)]

theorem repoScan_sound_rt {b : Bool} {l acc rest : List Char}
    (h : repoScan b l = some (acc, rest)) :
    l = acc ++ '@' :: rest ∧ ∀ r', repoScan b (acc ++ '@' :: r') = some (acc, r') := by
  induction l generalizing b acc rest with
  | nil => simp [repoScan] at h
  | cons c r ih =>
    simp only [repoScan] at h
    split at h
    next hAt =>
      subst hAt
      split at h
      next hb =>
        subst hb
        simp only [Option.some.injEq, Prod.mk.injEq] at h
        obtain ⟨h1, h2⟩ := h
        subst h1
        subst h2
        exact ⟨rfl, fun r' => by simp [repoScan]⟩
      next hb => cases h
    next hAt =>
      split at h
      next hSl =>
        subst hSl
        split at h
        next hb =>
          subst hb
          split at h
          next acc' rest' heq =>
            simp only [Option.some.injEq, Prod.mk.injEq] at h
            obtain ⟨h1, h2⟩ := h
            subst h1
            subst h2
            obtain ⟨hsound, hrt⟩ := ih heq
            refine ⟨by rw [hsound]; rfl, ?_⟩
            intro r'
            have step : ('/' :: acc') ++ '@' :: r' = '/' :: (acc' ++ '@' :: r') := rfl
            rw [step]
            simp only [repoScan]
            rw [hrt r', if_neg (show ¬('/' = '@') by decide), if_pos trivial]
            rfl
          next heq => cases h
        next hb => cases h
      next hSl =>
        split at h
        next hw =>
          split at h
          next acc' rest' heq =>
            simp only [Option.some.injEq, Prod.mk.injEq] at h
            obtain ⟨h1, h2⟩ := h
            subst h1
            subst h2
            obtain ⟨hsound, hrt⟩ := ih heq
            refine ⟨by rw [hsound]; rfl, ?_⟩
            intro r'
            have step : (c :: acc') ++ '@' :: r' = c :: (acc' ++ '@' :: r') := rfl
            rw [step]
            simp only [repoScan]
            rw [if_neg hAt, if_neg hSl, if_pos hw, hrt r']
          next heq => cases h
        next hw => cases h

theorem parseRepo_inv {l rp r : List Char} (h : parseRepo l = some (rp, r)) :
    l = rp ++ '@' :: r ∧ (∃ c cs, rp = c :: cs ∧ wordDash c = true) ∧
      ∀ r', parseRepo (rp ++ '@' :: r') = some (rp, r') := by
  simp only [parseRepo] at h
  split at h
  next c1 => cases h
  next c1 =>
    split at h
    next r2 heqd =>
      split at h
      next acc rest heq =>
        simp only [Option.some.injEq, Prod.mk.injEq] at h
        obtain ⟨h1, h2⟩ := h
        subst h1
        subst h2
        obtain ⟨hsound, hrt⟩ := repoScan_sound_rt heq
        have hs1all : (l.takeWhile wordDash).all wordDash = true := List.all_takeWhile
        have hhead : ∃ ch cs, l.takeWhile wordDash = ch :: cs ∧ wordDash ch = true := by
          cases htk : l.takeWhile wordDash with
          | nil => rw [htk] at c1; exact absurd rfl c1
          | cons ch cs =>
            refine ⟨ch, cs, rfl, ?_⟩
            have hall : (l.takeWhile wordDash).all wordDash = true := List.all_takeWhile
            rw [htk] at hall
            simp only [List.all_cons, Bool.and_eq_true] at hall
            exact hall.1
        refine ⟨?_, ?_, ?_⟩
        · calc l = l.takeWhile wordDash ++ l.dropWhile wordDash :=
              (List.takeWhile_append_dropWhile wordDash l).symm
            _ = l.takeWhile wordDash ++ ('/' :: r2) := by rw [heqd]
            _ = l.takeWhile wordDash ++ ('/' :: (acc ++ '@' :: rest)) := by rw [← hsound]
            _ = (l.takeWhile wordDash ++ '/' :: acc) ++ '@' :: rest := by
              simp [List.append_assoc]
        · obtain ⟨ch, cs, he, hwd⟩ := hhead
          exact ⟨ch, cs ++ '/' :: acc, by rw [he]; rfl, hwd⟩
        · intro r'
          have hshape : (l.takeWhile wordDash ++ '/' :: acc) ++ '@' :: r' =
              l.takeWhile wordDash ++ ('/' :: (acc ++ '@' :: r')) := by
            simp [List.append_assoc]
          rw [hshape]
          have htw : (l.takeWhile wordDash ++ ('/' :: (acc ++ '@' :: r'))).takeWhile wordDash =
              l.takeWhile wordDash :=
            takeWhile_append_all hs1all (by rintro ch ⟨rfl⟩; decide)
          have hdw : (l.takeWhile wordDash ++ ('/' :: (acc ++ '@' :: r'))).dropWhile wordDash =
              '/' :: (acc ++ '@' :: r') :=
            dropWhile_append_all hs1all (by rintro ch ⟨rfl⟩; decide)
          simp only [parseRepo, htw, hdw]
          rw [if_neg c1, hrt r']
      next heq => cases h
    next x heqd => cases h

theorem parseSha_sound {l s r : List Char} (h : parseSha l = some (s, r)) :
    l = s ++ r ∧ s.length = 40 ∧ s.all isHexLower = true := by
  simp only [parseSha] at h
  split at h
  next hlen =>
    split at h
    next hall =>
      simp only [Option.some.injEq, Prod.mk.injEq] at h
      obtain ⟨h1, h2⟩ := h
      subst h1
      subst h2
      exact ⟨(List.take_append_drop 40 l).symm, hlen, hall⟩
    next hall => cases h
  next hlen => cases h

theorem parseSha_build {s r : List Char} (h1 : s.length = 40)
    (h2 : s.all isHexLower = true) : parseSha (s ++ r) = some (s, r) := by
  have htk : (s ++ r).take 40 = s := by
    rw [← h1]
    exact take_len_append s r
  have hdr : (s ++ r).drop 40 = r := by
    rw [← h1]
    exact drop_len_append s r
  simp only [parseSha, htk, hdr]
  rw [if_pos h1, if_pos h2]

theorem digScan_stop {l : List Char}
    (h : ∀ c, l.head? = some c → c.isDigit = false ∧ c ≠ '.') :
    digScan l = ([], l) := by
  match l with
  | [] => rfl
  | [c] =>
    obtain ⟨hd, _⟩ := h c rfl
    simp [digScan, hd]
  | c :: d :: r =>
    obtain ⟨hd, hdot⟩ := h c rfl
    simp [digScan, hd, hdot]

theorem digScan_sound_rt {l g rest : List Char} (h : digScan l = (g, rest)) :
    l = g ++ rest ∧ g.all (fun c => c.isDigit || c = '.') = true ∧
      ∀ r', (∀ c, r'.head? = some c → c.isDigit = false ∧ c ≠ '.') →
        digScan (g ++ r') = (g, r') := by
  induction l using digScan.induct generalizing g rest with
  | case1 =>
    simp only [digScan, Prod.mk.injEq] at h
    obtain ⟨h1, h2⟩ := h
    subst h1
    subst h2
    exact ⟨rfl, rfl, fun r' hr' => by simpa using digScan_stop hr'⟩
  | case2 c hdig =>
    simp only [digScan, if_pos hdig, Prod.mk.injEq] at h
    obtain ⟨h1, h2⟩ := h
    subst h1
    subst h2
    refine ⟨rfl, by simp [hdig], ?_⟩
    intro r' hr'
    cases r' with
    | nil => simp [digScan, hdig]
    | cons x xs =>
      have hstop : digScan (x :: xs) = ([], x :: xs) := digScan_stop hr'
      have : ([c] ++ x :: xs : List Char) = c :: x :: xs := rfl
      rw [this]
      simp only [digScan, if_pos hdig, hstop]
  | case3 c hdig =>
    simp only [digScan, if_neg hdig, Prod.mk.injEq] at h
    obtain ⟨h1, h2⟩ := h
    subst h1
    subst h2
    exact ⟨rfl, rfl, fun r' hr' => by simpa using digScan_stop hr'⟩
  | case4 c d r hdig ih =>
    simp only [digScan, if_pos hdig] at h
    rcases hp : digScan (d :: r) with ⟨g', rest'⟩
    rw [hp] at h
    simp only [Prod.mk.injEq] at h
    obtain ⟨h1, h2⟩ := h
    subst h1
    subst h2
    obtain ⟨hsound, hall, hrt⟩ := ih hp
    refine ⟨by rw [hsound]; rfl, by simp [hdig, hall], ?_⟩
    intro r' hr'
    have hshape : (c :: g') ++ r' = c :: (g' ++ r') := rfl
    rw [hshape]
    cases hgr : g' ++ r' with
    | nil =>
      obtain ⟨hg, hrr⟩ := List.append_eq_nil.mp hgr
      subst hg
      subst hrr
      simp [digScan, hdig]
    | cons x xs =>
      have hunf : digScan (c :: x :: xs) =
          (c :: (digScan (x :: xs)).1, (digScan (x :: xs)).2) := by
        simp only [digScan, if_pos hdig]
      rw [hunf, ← hgr, hrt r' hr']
  | case5 c d r hdig hdd ih =>
    simp only [digScan, if_neg hdig, if_pos hdd] at h
    have hcd : c = '.' ∧ d.isDigit = true := by
      simpa [Bool.and_eq_true, decide_eq_true_eq] using hdd
    rcases hp : digScan r with ⟨g', rest'⟩
    rw [hp] at h
    simp only [Prod.mk.injEq] at h
    obtain ⟨h1, h2⟩ := h
    subst h1
    subst h2
    obtain ⟨hsound, hall, hrt⟩ := ih hp
    obtain ⟨hc, hd⟩ := hcd
    subst hc
    refine ⟨by rw [hsound]; rfl, by simp [hd, hall], ?_⟩
    intro r' hr'
    have hshape : ('.' :: d :: g') ++ r' = '.' :: d :: (g' ++ r') := rfl
    rw [hshape]
    have hunf : digScan ('.' :: d :: (g' ++ r')) =
        ('.' :: d :: (digScan (g' ++ r')).1, (digScan (g' ++ r')).2) := by
      simp only [digScan]
      rw [if_neg (by decide), if_pos (by simp [hd])]
    rw [hunf, hrt r' hr']
  | case6 c d r hdig hnd =>
    simp only [digScan, if_neg hdig, if_neg hnd, Prod.mk.injEq] at h
    obtain ⟨h1, h2⟩ := h
    subst h1
    subst h2
    exact ⟨rfl, rfl, fun r' hr' => by simpa using digScan_stop hr'⟩

theorem digChain_all_version {g : List Char}
    (hall : g.all (fun c => c.isDigit || c = '.') = true) :
    g.all isVersionChar = true := by
  refine List.all_eq_true.mpr fun x hx => ?_
  have := List.all_eq_true.mp hall x hx
  simp only [Bool.or_eq_true, decide_eq_true_eq] at this
  rcases this with hxd | hxdot
  · simp [isVersionChar, hxd]
  · simp [isVersionChar, hxdot]

theorem parseVersionRef_inv {l u rest : List Char}
    (h : parseVersionRef l = some (u, rest)) :
    l = u ++ rest ∧ u ≠ [] ∧ u.all isVersionChar = true ∧
      ∀ r', (∀ c, r'.head? = some c → c.isDigit = false ∧ c ≠ '.') →
        parseVersionRef (u ++ r') = some (u, r') := by
  match l with
  | [] => simp [parseVersionRef] at h
  | [c] =>
    simp only [parseVersionRef] at h
    by_cases hv : c = 'v'
    · rw [if_pos hv] at h
      cases h
    · rw [if_neg hv] at h
      by_cases hd : c.isDigit = true
      · rw [if_pos hd] at h
        simp only [Option.some.injEq, Prod.mk.injEq] at h
        obtain ⟨h1, h2⟩ := h
        subst h1
        subst h2
        refine ⟨rfl, by simp, by simp [isVersionChar, hd], ?_⟩
        intro r' hr'
        cases r' with
        | nil => simp [parseVersionRef, hv, hd]
        | cons x xs =>
          have hstop : digScan (x :: xs) = ([], x :: xs) := digScan_stop hr'
          have hshape : ([c] ++ x :: xs : List Char) = c :: x :: xs := rfl
          rw [hshape]
          simp only [parseVersionRef, if_neg hv, if_pos hd, hstop]
      · rw [if_neg hd] at h
        cases h
  | c :: d :: r2 =>
    simp only [parseVersionRef] at h
    by_cases hv : c = 'v'
    · subst hv
      rw [if_pos rfl] at h
      by_cases hd : d.isDigit = true
      · rw [if_pos hd] at h
        rcases hp : digScan r2 with ⟨g', rest'⟩
        rw [hp] at h
        simp only [Option.some.injEq, Prod.mk.injEq] at h
        obtain ⟨h1, h2⟩ := h
        subst h1
        subst h2
        obtain ⟨hsound, hall, hrt⟩ := digScan_sound_rt hp
        refine ⟨by rw [hsound]; rfl, by simp, ?_, ?_⟩
        · simp only [List.all_cons, Bool.and_eq_true]
          exact ⟨by decide, by simp [isVersionChar, hd], digChain_all_version hall⟩
        · intro r' hr'
          have hshape : ('v' :: d :: g') ++ r' = 'v' :: d :: (g' ++ r') := rfl
          rw [hshape]
          simp only [parseVersionRef, if_pos rfl, if_pos hd]
          rw [hrt r' hr', if_pos trivial]
      · rw [if_neg hd] at h
        cases h
    · rw [if_neg hv] at h
      by_cases hd : c.isDigit = true
      · rw [if_pos hd] at h
        rcases hp : digScan (d :: r2) with ⟨g', rest'⟩
        rw [hp] at h
        simp only [Option.some.injEq, Prod.mk.injEq] at h
        obtain ⟨h1, h2⟩ := h
        subst h1
        subst h2
        obtain ⟨hsound, hall, hrt⟩ := digScan_sound_rt hp
        refine ⟨by rw [hsound]; rfl, by simp, ?_, ?_⟩
        · simp only [List.all_cons, Bool.and_eq_true]
          exact ⟨by simp [isVersionChar, hd], digChain_all_version hall⟩
        · intro r' hr'
          have hshape : (c :: g') ++ r' = c :: (g' ++ r') := rfl
          rw [hshape]
          cases hgr : g' ++ r' with
          | nil =>
            obtain ⟨hg, hrr⟩ := List.append_eq_nil.mp hgr
            subst hg
            subst hrr
            simp [parseVersionRef, hv, hd]
          | cons x xs =>
            have hunf : parseVersionRef (c :: x :: xs) =
                some (c :: (digScan (x :: xs)).1, (digScan (x :: xs)).2) := by
              simp only [parseVersionRef, if_neg hv, if_pos hd]
            rw [hunf, ← hgr, hrt r' hr']
      · rw [if_neg hd] at h
        cases h

theorem parseTail_sound {l w : List Char} {c : Option (List Char)}
    (h : parseTail l = some (w, c)) :
    l = w ++ c.getD [] ∧ w.all isSpace = true ∧
      (c = none ∨ ∃ cs, c = some ('#' :: cs)) := by
  simp only [parseTail] at h
  split at h
  next heq =>
    simp only [Option.some.injEq, Prod.mk.injEq] at h
    obtain ⟨h1, h2⟩ := h
    subst h1
    subst h2
    refine ⟨?_, List.all_takeWhile, Or.inl rfl⟩
    have := (List.takeWhile_append_dropWhile isSpace l).symm
    rw [heq] at this
    simpa using this
  next ch cs heq =>
    simp only [Option.some.injEq, Prod.mk.injEq] at h
    obtain ⟨h1, h2⟩ := h
    subst h1
    subst h2
    refine ⟨?_, List.all_takeWhile, Or.inr ⟨cs, by rw [heq]⟩⟩
    have := (List.takeWhile_append_dropWhile isSpace l).symm
    rw [heq] at this
    simpa [heq] using this
  next heq => cases h

theorem parseTail_ws {w : List Char} (hw : w.all isSpace = true) :
    parseTail w = some (w, none) := by
  have htw : (w ++ ([] : List Char)).takeWhile isSpace = w :=
    takeWhile_append_all hw (by rintro c ⟨⟩)
  have hdw : (w ++ ([] : List Char)).dropWhile isSpace = [] :=
    dropWhile_append_all hw (by rintro c ⟨⟩)
  simp only [List.append_nil] at htw hdw
  simp [parseTail, htw, hdw]

theorem parseTail_comment {w cs : List Char} (hw : w.all isSpace = true) :
    parseTail (w ++ '#' :: cs) = some (w, some ('#' :: cs)) := by
  have htw : (w ++ '#' :: cs).takeWhile isSpace = w :=
    takeWhile_append_all hw (by rintro c ⟨rfl⟩; decide)
  have hdw : (w ++ '#' :: cs).dropWhile isSpace = '#' :: cs :=
    dropWhile_append_all hw (by rintro c ⟨rfl⟩; decide)
  simp [parseTail, htw, hdw]

theorem parseShaLine_inv {l : List Char} {m : LineMatch} (h : parseShaLine l = some m) :
    ∃ r1 r2 r3, parseUses l = some (m.pre, r1) ∧ parseRepo r1 = some (m.repo, r2) ∧
      parseSha r2 = some (m.ref, r3) ∧ parseTail r3 = some (m.ws, m.comment) := by
  simp only [parseShaLine] at h
  split at h
  next => cases h
  next p r1 hU =>
    split at h
    next => cases h
    next rp r2 hR =>
      split at h
      next => cases h
      next s r3 hS =>
        split at h
        next => cases h
        next w c hT =>
          simp only [Option.some.injEq] at h
          subst h
          exact ⟨r1, r2, r3, hU, hR, hS, hT⟩

theorem parseVersionLine_inv {l : List Char} {m : LineMatch}
    (h : parseVersionLine l = some m) :
    ∃ r1 r2 r3, parseUses l = some (m.pre, r1) ∧ parseRepo r1 = some (m.repo, r2) ∧
      parseVersionRef r2 = some (m.ref, r3) ∧ parseTail r3 = some (m.ws, m.comment) := by
  simp only [parseVersionLine] at h
  split at h
  next => cases h
  next p r1 hU =>
    split at h
    next => cases h
    next rp r2 hR =>
      split at h
      next => cases h
      next s r3 hS =>
        split at h
        next => cases h
        next w c hT =>
          simp only [Option.some.injEq] at h
          subst h
          exact ⟨r1, r2, r3, hU, hR, hS, hT⟩

theorem parseShaLine_sound {l : List Char} {m : LineMatch} (h : parseShaLine l = some m) :
    l = m.pre ++ m.repo ++ '@' :: (m.ref ++ m.ws ++ m.comment.getD []) ∧
      m.ref.length = 40 ∧ m.ref.all isHexLower = true ∧
      m.ws.all isSpace = true ∧
      (m.comment = none ∨ ∃ cs, m.comment = some ('#' :: cs)) := by
  obtain ⟨r1, r2, r3, hU, hR, hS, hT⟩ := parseShaLine_inv h
  obtain ⟨w1, w2, -, -, -, -, -, hl, -⟩ := parseUses_inv hU
  obtain ⟨hr1, -, -⟩ := parseRepo_inv hR
  obtain ⟨hr2, hlen, hhex⟩ := parseSha_sound hS
  obtain ⟨hr3, hwall, hcshape⟩ := parseTail_sound hT
  refine ⟨?_, hlen, hhex, hwall, hcshape⟩
  calc l = m.pre ++ r1 := hl
    _ = m.pre ++ (m.repo ++ '@' :: r2) := by rw [hr1]
    _ = m.pre ++ (m.repo ++ '@' :: (m.ref ++ r3)) := by rw [hr2]
    _ = m.pre ++ (m.repo ++ '@' :: (m.ref ++ (m.ws ++ m.comment.getD []))) := by rw [hr3]
    _ = m.pre ++ m.repo ++ '@' :: (m.ref ++ m.ws ++ m.comment.getD []) := by
        simp [List.append_assoc]

theorem parseVersionLine_sound {l : List Char} {m : LineMatch}
    (h : parseVersionLine l = some m) :
    l = m.pre ++ m.repo ++ '@' :: (m.ref ++ m.ws ++ m.comment.getD []) ∧
      m.ref ≠ [] ∧ m.ref.all isVersionChar = true ∧
      m.ws.all isSpace = true ∧
      (m.comment = none ∨ ∃ cs, m.comment = some ('#' :: cs)) := by
  obtain ⟨r1, r2, r3, hU, hR, hS, hT⟩ := parseVersionLine_inv h
  obtain ⟨w1, w2, -, -, -, -, -, hl, -⟩ := parseUses_inv hU
  obtain ⟨hr1, -, -⟩ := parseRepo_inv hR
  obtain ⟨hr2, hne, hvc, -⟩ := parseVersionRef_inv hS
  obtain ⟨hr3, hwall, hcshape⟩ := parseTail_sound hT
  refine ⟨?_, hne, hvc, hwall, hcshape⟩
  calc l = m.pre ++ r1 := hl
    _ = m.pre ++ (m.repo ++ '@' :: r2) := by rw [hr1]
    _ = m.pre ++ (m.repo ++ '@' :: (m.ref ++ r3)) := by rw [hr2]
    _ = m.pre ++ (m.repo ++ '@' :: (m.ref ++ (m.ws ++ m.comment.getD []))) := by rw [hr3]
    _ = m.pre ++ m.repo ++ '@' :: (m.ref ++ m.ws ++ m.comment.getD []) := by
        simp [List.append_assoc]

theorem parseShaLine_build {l0 p r1 rp r2 : List Char}
    (hU : parseUses l0 = some (p, r1)) (hR : parseRepo r1 = some (rp, r2))
    {s t w : List Char} {c : Option (List Char)}
    (hs : s.length = 40) (hs2 : s.all isHexLower = true)
    (ht : parseTail t = some (w, c)) :
    parseShaLine (p ++ rp ++ '@' :: (s ++ t)) = some ⟨p, rp, s, w, c⟩ := by
  obtain ⟨w1, w2, a1, a2, n1, n2, hp, -, -⟩ := parseUses_inv hU
  obtain ⟨-, ⟨ch, cs, hrp, hwd⟩, hrt⟩ := parseRepo_inv hR
  have hhead : ∀ cc, (rp ++ '@' :: (s ++ t)).head? = some cc → isSpace cc = false := by
    intro cc hcc
    rw [hrp] at hcc
    simp only [List.cons_append, List.head?_cons, Option.some.injEq] at hcc
    subst hcc
    exact wordDash_not_space hwd
  have hU2 : parseUses (p ++ (rp ++ '@' :: (s ++ t))) = some (p, rp ++ '@' :: (s ++ t)) := by
    subst hp
    exact parseUses_build a1 a2 n1 n2 hhead
  have hshape : p ++ rp ++ '@' :: (s ++ t) = p ++ (rp ++ '@' :: (s ++ t)) := by
    simp [List.append_assoc]
  rw [hshape]
  simp only [parseShaLine, hU2, hrt (s ++ t), parseSha_build hs hs2, ht]

/-! ## The label tie-break order -/

theorem lexLt_irrefl (a : List Char) : lexLt a a = false := by
  induction a with
  | nil => rfl
  | cons c as ih => simp [lexLt, ih]

theorem lexLt_trans {a b c : List Char} (h1 : lexLt a b = true)
    (h2 : lexLt b c = true) : lexLt a c = true := by
  induction a generalizing b c with
  | nil =>
    cases b with
    | nil => cases h1
    | cons bb bs =>
      cases c with
      | nil => cases h2
      | cons cc cs => rfl
  | cons aa as ih =>
    cases b with
    | nil => cases h1
    | cons bb bs =>
      cases c with
      | nil => cases h2
      | cons cc cs =>
        simp only [lexLt] at h1 h2 ⊢
        by_cases hab : aa = bb
        · subst hab
          rw [if_pos rfl] at h1
          by_cases hbc : aa = cc
          · subst hbc
            rw [if_pos rfl] at h2
            rw [if_pos rfl]
            exact ih h1 h2
          · rw [if_neg hbc] at h2
            rw [if_neg hbc]
            exact h2
        · rw [if_neg hab] at h1
          by_cases hbc : bb = cc
          · subst hbc
            rw [if_neg hab]
            exact h1
          · rw [if_neg hbc] at h2
            simp only [decide_eq_true_eq] at h1 h2
            by_cases hac : aa = cc
            · subst hac
              exact absurd (lt_trans h1 h2) (lt_irrefl aa)
            · rw [if_neg hac]
              simp only [decide_eq_true_eq]
              exact lt_trans h1 h2

theorem lexLt_conn {a b : List Char} (h : lexLt a b = false) :
    a = b ∨ lexLt b a = true := by
  induction a generalizing b with
  | nil =>
    cases b with
    | nil => exact Or.inl rfl
    | cons bb bs => cases h
  | cons aa as ih =>
    cases b with
    | nil => exact Or.inr rfl
    | cons bb bs =>
      simp only [lexLt] at h ⊢
      by_cases hab : aa = bb
      · subst hab
        rw [if_pos rfl] at h
        rw [if_pos rfl]
        rcases ih h with rfl | hlt
        · exact Or.inl rfl
        · exact Or.inr hlt
      · rw [if_neg hab] at h
        have hne : bb ≠ aa := fun hh => hab hh.symm
        rw [if_neg hne]
        simp only [decide_eq_false_iff_not] at h
        simp only [decide_eq_true_eq]
        exact Or.inr (lt_of_le_of_ne (not_lt.mp h) hne)

theorem keyLt_irrefl (a : List Char) : keyLt a a = false := by
  simp [keyLt, lexLt_irrefl]

theorem keyLt_trans {a b c : List Char} (h1 : keyLt a b = true)
    (h2 : keyLt b c = true) : keyLt a c = true := by
  by_cases hab : numComponents a < numComponents b
  · by_cases hbc : numComponents b < numComponents c
    · have hac : numComponents a < numComponents c := Nat.lt_trans hab hbc
      simp [keyLt, hac]
    · by_cases hbc2 : numComponents b = numComponents c
      · have hac : numComponents a < numComponents c := hbc2 ▸ hab
        simp [keyLt, hac]
      · simp only [keyLt, if_neg hbc, if_neg hbc2] at h2
        cases h2
  · by_cases hab2 : numComponents a = numComponents b
    · simp only [keyLt, if_neg hab, if_pos hab2] at h1
      by_cases hbc : numComponents b < numComponents c
      · have hac : numComponents a < numComponents c := hab2 ▸ hbc
        simp [keyLt, hac]
      · by_cases hbc2 : numComponents b = numComponents c
        · simp only [keyLt, if_neg hbc, if_pos hbc2] at h2
          have hac : numComponents a = numComponents c := hab2.trans hbc2
          have hnlt : ¬ numComponents a < numComponents c := by omega
          simp only [keyLt, if_neg hnlt, if_pos hac]
          exact lexLt_trans h1 h2
        · simp only [keyLt, if_neg hbc, if_neg hbc2] at h2
          cases h2
    · simp only [keyLt, if_neg hab, if_neg hab2] at h1
      cases h1

theorem keyLt_conn {a b : List Char} (h : keyLt a b = false) :
    a = b ∨ keyLt b a = true := by
  by_cases hab : numComponents a < numComponents b
  · simp only [keyLt, if_pos hab] at h
    cases h
  · by_cases hab2 : numComponents a = numComponents b
    · simp only [keyLt, if_neg hab, if_pos hab2] at h
      rcases lexLt_conn h with rfl | hlt
      · exact Or.inl rfl
      · right
        have h1 : ¬ numComponents b < numComponents a := by omega
        simp only [keyLt, if_neg h1, if_pos hab2.symm]
        exact hlt
    · right
      have hba : numComponents b < numComponents a := by omega
      simp [keyLt, hba]

theorem foldl_selStep_spec (x : List Char) (xs : List (List Char)) :
    (xs.foldl selStep x = x ∨ xs.foldl selStep x ∈ xs) ∧
      ∀ t, (t = x ∨ t ∈ xs) → keyLt t (xs.foldl selStep x) = false := by
  induction xs generalizing x with
  | nil =>
    refine ⟨Or.inl rfl, ?_⟩
    rintro t (rfl | ht)
    · exact keyLt_irrefl t
    · cases ht
  | cons y ys ih =>
    have step : (y :: ys).foldl selStep x = ys.foldl selStep (selStep x y) := rfl
    obtain ⟨hmem, hmin⟩ := ih (selStep x y)
    constructor
    · rw [step]
      rcases hmem with heq | hm
      · rw [heq]
        simp only [selStep]
        by_cases hxy : keyLt y x = true
        · rw [if_pos hxy]
          exact Or.inr (List.mem_cons_self y ys)
        · rw [if_neg hxy]
          exact Or.inl rfl
      · exact Or.inr (List.mem_cons_of_mem y hm)
    · rintro t htmem
      rw [step]
      by_cases hxy : keyLt y x = true
      · have hx' : selStep x y = y := by simp [selStep, hxy]
        rw [hx'] at hmin
        rw [hx']
        rcases htmem with rfl | ht
        · by_cases hc : keyLt t (ys.foldl selStep y) = true
          · have hyr : keyLt y (ys.foldl selStep y) = false := hmin y (Or.inl rfl)
            have := keyLt_trans hxy hc
            rw [this] at hyr
            cases hyr
          · exact Bool.eq_false_iff.mpr hc
        · rcases List.mem_cons.mp ht with rfl | ht2
          · exact hmin t (Or.inl rfl)
          · exact hmin t (Or.inr ht2)
      · have hxy2 : keyLt y x = false := Bool.eq_false_iff.mpr hxy
        have hx' : selStep x y = x := by simp [selStep, hxy2]
        rw [hx'] at hmin
        rw [hx']
        rcases htmem with rfl | ht
        · exact hmin t (Or.inl rfl)
        · rcases List.mem_cons.mp ht with rfl | ht2
          · by_cases hc : keyLt t (ys.foldl selStep x) = true
            · rcases keyLt_conn hxy2 with rfl | hlt
              · have := hmin t (Or.inl rfl)
                rw [hc] at this
                cases this
              · have := keyLt_trans hlt hc
                have hx := hmin x (Or.inl rfl)
                rw [this] at hx
                cases hx
            · exact Bool.eq_false_iff.mpr hc
          · exact hmin t (Or.inr ht2)

/-! ## Line rewriter case equations -/

theorem processLine_sha_bare_some {svc : GitHubService} {line : List Char}
    {m : LineMatch} {version : List Char}
    (hm : parseShaLine line = some m) (hb : commentBare m.comment = true)
    (hv : (get_version_for_commit_sha svc m.repo m.ref).1 = some version) :
    processLine svc line =
      (m.pre ++ m.repo ++ '@' :: (m.ref ++ ("  # ").data ++ version), true,
        [Call.labelResolve m.repo m.ref]) := by
  simp only [processLine, hm, hb, hv, if_true]

theorem processLine_sha_bare_none {svc : GitHubService} {line : List Char}
    {m : LineMatch}
    (hm : parseShaLine line = some m) (hb : commentBare m.comment = true)
    (hv : (get_version_for_commit_sha svc m.repo m.ref).1 = none) :
    processLine svc line = (line, false, [Call.labelResolve m.repo m.ref]) := by
  simp only [processLine, hm, hb, hv, if_true]

theorem processLine_sha_annotated {svc : GitHubService} {line : List Char}
    {m : LineMatch}
    (hm : parseShaLine line = some m) (hb : commentBare m.comment = false) :
    processLine svc line = (line, false, []) := by
  simp only [processLine, hm, hb]
  rw [if_neg Bool.false_ne_true]

theorem processLine_version_some {svc : GitHubService} {line : List Char}
    {m : LineMatch} {sha : List Char}
    (hn : parseShaLine line = none) (hm : parseVersionLine line = some m)
    (hs : (get_commit_sha_for_tag svc m.repo m.ref).1 = some sha) :
    processLine svc line =
      (m.pre ++ m.repo ++ '@' ::
          (sha ++ (if (m.comment.getD []).isEmpty
                   then ("  # ").data ++ m.ref
                   else m.comment.getD [])), true,
        [Call.refResolve m.repo m.ref]) := by
  simp only [processLine, hn, hm, hs]

theorem processLine_version_none {svc : GitHubService} {line : List Char}
    {m : LineMatch}
    (hn : parseShaLine line = none) (hm : parseVersionLine line = some m)
    (hs : (get_commit_sha_for_tag svc m.repo m.ref).1 = none) :
    processLine svc line = (line, false, [Call.refResolve m.repo m.ref]) := by
  simp only [processLine, hn, hm, hs]

theorem processLine_nomatch {svc : GitHubService} {line : List Char}
    (hn : parseShaLine line = none) (hm : parseVersionLine line = none) :
    processLine svc line = (line, false, []) := by
  simp only [processLine, hn, hm]

/-! ## Comment shape facts -/

theorem commentBare_synth {v : List Char} (hne : v ≠ [])
    (hv : v.all (fun c => !isSpace c) = true) :
    commentBare (some ('#' :: ' ' :: v)) = false := by
  simp only [commentBare, pyStrip_hash_tail hne hv]
  simp only [List.isEmpty_cons, Bool.false_or]
  simp only [decide_eq_false_iff_not]
  intro hcontra
  injection hcontra with h1 h2
  cases h2

theorem commentBare_hash {c : List Char}
    (hb : commentBare (some ('#' :: c)) = true) :
    pyStrip ('#' :: c) = ("#").data := by
  simp only [commentBare, Bool.or_eq_true] at hb
  rcases hb with hb | hb
  · exact absurd (List.isEmpty_iff.mp hb) (pyStrip_hash_ne_nil c)
  · exact of_decide_eq_true hb

/-! ## Service well-formedness

The remote service stores commit identifiers (40 lowercase hex characters,
per the data model) and git tag names (nonempty, no whitespace).  These two
predicates state that every successful resolver answer is of that form. -/

def shasWellFormed (svc : GitHubService) : Prop :=
  ∀ repo tag s, (get_commit_sha_for_tag svc repo tag).1 = some s →
    s.length = 40 ∧ s.all isHexLower = true

def labelsWellFormed (svc : GitHubService) : Prop :=
  ∀ repo sha v, (get_version_for_commit_sha svc repo sha).1 = some v →
    v ≠ [] ∧ v.all (fun c => !isSpace c) = true

/-- The changed flag of the line rewriter is truthful: a line counted as
changed is rewritten to a different string, and a line not counted is
returned byte-identical. -/
theorem processLine_flag_truthful (svc : GitHubService)
    (hsha : shasWellFormed svc) (hlbl : labelsWellFormed svc) (line : List Char) :
    ((processLine svc line).2.1 = true → (processLine svc line).1 ≠ line) ∧
      ((processLine svc line).2.1 = false → (processLine svc line).1 = line) := by
  cases hm : parseShaLine line with
  | some m =>
    by_cases hb : commentBare m.comment = true
    · cases hv : (get_version_for_commit_sha svc m.repo m.ref).1 with
      | some version =>
        rw [processLine_sha_bare_some hm hb hv]
        obtain ⟨hv1, hv2⟩ := hlbl _ _ _ hv
        obtain ⟨hline, hlen, hhex, hws, hcshape⟩ := parseShaLine_sound hm
        refine ⟨fun _ heq => ?_, fun hfalse => by cases hfalse⟩
        rw [hline] at heq
        have hx : m.pre ++ m.repo ++ '@' :: (m.ref ++ (("  # ").data ++ version)) =
            m.pre ++ m.repo ++ '@' :: (m.ref ++ (m.ws ++ m.comment.getD [])) := by
          simpa [List.append_assoc] using heq
        have h2 := List.append_cancel_left hx
        injection h2 with h3 h4
        have heq2 := List.append_cancel_left h4
        have hps := congrArg pyStrip heq2
        have hlhs : pyStrip (("  # ").data ++ version) = '#' :: ' ' :: version := by
          have hshape : ("  # ").data ++ version = [' ', ' '] ++ ('#' :: ' ' :: version) := rfl
          rw [hshape, pyStrip_space_append (by decide), pyStrip_hash_tail hv1 hv2]
        rw [hlhs, pyStrip_space_append hws] at hps
        rcases hcshape with hcn | ⟨cs, hcs⟩
        · rw [hcn] at hps
          simp only [Option.getD_none] at hps
          have hnil : pyStrip ([] : List Char) = [] := rfl
          rw [hnil] at hps
          cases hps
        · rw [hcs] at hps hb
          simp only [Option.getD_some] at hps
          rw [commentBare_hash hb] at hps
          injection hps with h5 h6
          cases h6
      | none =>
        rw [processLine_sha_bare_none hm hb hv]
        exact ⟨fun hc => (Bool.false_ne_true hc).elim, fun _ => rfl⟩
    · have hb2 : commentBare m.comment = false := Bool.eq_false_iff.mpr hb
      rw [processLine_sha_annotated hm hb2]
      exact ⟨fun hc => (Bool.false_ne_true hc).elim, fun _ => rfl⟩
  | none =>
    cases hvm : parseVersionLine line with
    | some m =>
      cases hs : (get_commit_sha_for_tag svc m.repo m.ref).1 with
      | some sha =>
        rw [processLine_version_some hm hvm hs]
        obtain ⟨hs40, hshex⟩ := hsha _ _ _ hs
        obtain ⟨hline, hrefne, hrefvc, hws, hcshape⟩ := parseVersionLine_sound hvm
        refine ⟨fun _ heq => ?_, fun hfalse => by cases hfalse⟩
        rw [hline] at heq
        by_cases hce : (m.comment.getD []).isEmpty = true
        · have hcn : m.comment = none := by
            rcases hcshape with hcn | ⟨cs, hcs⟩
            · exact hcn
            · rw [hcs] at hce
              cases hce
          rw [if_pos hce] at heq
          rw [hcn] at heq
          simp only [Option.getD_none, List.append_nil] at heq
          have hx : m.pre ++ m.repo ++ '@' :: (sha ++ (("  # ").data ++ m.ref)) =
              m.pre ++ m.repo ++ '@' :: (m.ref ++ m.ws) := by
            simpa [List.append_assoc] using heq
          have h2 := List.append_cancel_left hx
          injection h2 with h3 h4
          have hmem : ('#' : Char) ∈ sha ++ (("  # ").data ++ m.ref) := by
            refine List.mem_append_right _ (List.mem_append_left _ ?_)
            decide
          rw [h4] at hmem
          rcases List.mem_append.mp hmem with hmm | hmm
          · have := List.all_eq_true.mp hrefvc _ hmm
            exact absurd this (by decide)
          · have := List.all_eq_true.mp hws _ hmm
            exact absurd this (by decide)
        · have hcsome : ∃ cs, m.comment = some ('#' :: cs) := by
            rcases hcshape with hcn | hcs
            · rw [hcn] at hce
              exact absurd rfl hce
            · exact hcs
          obtain ⟨cs, hcseq⟩ := hcsome
          rw [if_neg hce] at heq
          rw [hcseq] at heq
          simp only [Option.getD_some] at heq
          have hx : m.pre ++ m.repo ++ '@' :: (sha ++ '#' :: cs) =
              m.pre ++ m.repo ++ '@' :: ((m.ref ++ m.ws) ++ '#' :: cs) := by
            simpa [List.append_assoc] using heq
          have h2 := List.append_cancel_left hx
          injection h2 with h3 h4
          have hlen2 : (m.ref ++ m.ws).length = 40 := by
            have hlc := congrArg List.length h4
            simp only [List.length_append, List.length_cons] at hlc
            simp only [List.length_append]
            omega
          have hsw : sha = m.ref ++ m.ws := by
            have ht1 : (sha ++ '#' :: cs).take 40 = sha := by
              rw [← hs40]
              exact take_len_append _ _
            have ht2 : ((m.ref ++ m.ws) ++ '#' :: cs).take 40 = m.ref ++ m.ws := by
              rw [← hlen2]
              exact take_len_append _ _
            rw [← ht1, ← ht2, h4]
          have hwsnil : m.ws = [] := by
            have hall : (m.ref ++ m.ws).all isHexLower = true := hsw ▸ hshex
            rw [List.all_append, Bool.and_eq_true] at hall
            cases hws' : m.ws with
            | nil => rfl
            | cons wc wcs =>
              rw [hws'] at hall
              have hx1 := List.all_eq_true.mp hall.2 wc (List.mem_cons_self _ _)
              have hx2 : isSpace wc = true := by
                rw [hws'] at hws
                exact List.all_eq_true.mp hws wc (List.mem_cons_self _ _)
              rw [space_not_hex hx2] at hx1
              cases hx1
          rw [hwsnil, List.append_nil] at hsw
          obtain ⟨r1, r2, r3, hU, hR, hVR, hT⟩ := parseVersionLine_inv hvm
          obtain ⟨hr2eq, -, -, -⟩ := parseVersionRef_inv hVR
          have hbuild := parseShaLine_build hU hR
            (show m.ref.length = 40 by rw [← hsw]; exact hs40)
            (show m.ref.all isHexLower = true by rw [← hsw]; exact hshex) hT
          obtain ⟨w1, w2, -, -, -, -, -, hlu, -⟩ := parseUses_inv hU
          obtain ⟨hr1eq, -, -⟩ := parseRepo_inv hR
          have hlineeq : line = m.pre ++ m.repo ++ '@' :: (m.ref ++ r3) := by
            calc line = m.pre ++ r1 := hlu
              _ = m.pre ++ (m.repo ++ '@' :: r2) := by rw [hr1eq]
              _ = m.pre ++ (m.repo ++ '@' :: (m.ref ++ r3)) := by rw [hr2eq]
              _ = m.pre ++ m.repo ++ '@' :: (m.ref ++ r3) := by simp [List.append_assoc]
          rw [← hlineeq] at hbuild
          rw [hm] at hbuild
          cases hbuild
      | none =>
        rw [processLine_version_none hm hvm hs]
        exact ⟨fun hc => (Bool.false_ne_true hc).elim, fun _ => rfl⟩
    | none =>
      rw [processLine_nomatch hm hvm]
      exact ⟨fun hc => (Bool.false_ne_true hc).elim, fun _ => rfl⟩

theorem versionChar_not_space {c : Char} (h : isVersionChar c = true) :
    isSpace c = false := by
  simp only [isVersionChar, Bool.or_eq_true, decide_eq_true_eq] at h
  rcases h with (rfl | hd) | rfl
  · decide
  · by_contra hs
    rw [Bool.not_eq_false] at hs
    simp only [isSpace, Bool.or_eq_true, decide_eq_true_eq] at hs
    rcases hs with ((((rfl | rfl) | rfl) | rfl) | rfl) | rfl <;> exact absurd hd (by decide)
  · decide

/-- Rewriting a line a second time changes nothing: every rewritten line
re-parses as an already-annotated pinned line, provided resolved shas are
40-hex, resolved labels are whitespace-free, and no version-tag line of the
input carried a bare comment. -/
theorem processLine_second_run (svc : GitHubService)
    (hsha : shasWellFormed svc) (hlbl : labelsWellFormed svc)
    (line : List Char) (hnb : lineNoBareVersionComment line = true) :
    (processLine svc (processLine svc line).1).1 = (processLine svc line).1 ∧
      (processLine svc (processLine svc line).1).2.1 = false := by
  cases hm : parseShaLine line with
  | some m =>
    by_cases hb : commentBare m.comment = true
    · cases hv : (get_version_for_commit_sha svc m.repo m.ref).1 with
      | some version =>
        rw [processLine_sha_bare_some hm hb hv]
        obtain ⟨hv1, hv2⟩ := hlbl _ _ _ hv
        obtain ⟨r1, r2, r3, hU, hR, hS, hT⟩ := parseShaLine_inv hm
        obtain ⟨-, hlen, hhex⟩ := parseSha_sound hS
        have hT2 : parseTail (("  # ").data ++ version) =
            some ([' ', ' '], some ('#' :: ' ' :: version)) := by
          have hshape : ("  # ").data ++ version = [' ', ' '] ++ '#' :: (' ' :: version) := rfl
          rw [hshape]
          exact parseTail_comment (by decide)
        have hbuild := parseShaLine_build hU hR hlen hhex hT2
        have hshape2 : m.pre ++ m.repo ++ '@' :: (m.ref ++ ("  # ").data ++ version) =
            m.pre ++ m.repo ++ '@' :: (m.ref ++ (("  # ").data ++ version)) := by
          simp [List.append_assoc]
        rw [hshape2]
        rw [processLine_sha_annotated hbuild (commentBare_synth hv1 hv2)]
        exact ⟨rfl, rfl⟩
      | none =>
        rw [processLine_sha_bare_none hm hb hv]
        rw [processLine_sha_bare_none hm hb hv]
        exact ⟨rfl, rfl⟩
    · have hb2 := Bool.eq_false_iff.mpr hb
      rw [processLine_sha_annotated hm hb2, processLine_sha_annotated hm hb2]
      exact ⟨rfl, rfl⟩
  | none =>
    cases hvm : parseVersionLine line with
    | some m =>
      cases hs : (get_commit_sha_for_tag svc m.repo m.ref).1 with
      | some sha =>
        rw [processLine_version_some hm hvm hs]
        obtain ⟨hs40, hshex⟩ := hsha _ _ _ hs
        obtain ⟨r1, r2, r3, hU, hR, hVR, hT⟩ := parseVersionLine_inv hvm
        obtain ⟨-, hrefne, hrefvc, -⟩ := parseVersionRef_inv hVR
        have hrefns : m.ref.all (fun c => !isSpace c) = true := by
          refine List.all_eq_true.mpr fun x hx => ?_
          have := List.all_eq_true.mp hrefvc x hx
          simp [versionChar_not_space this]
        by_cases hce : (m.comment.getD []).isEmpty = true
        · rw [if_pos hce]
          have hT2 : parseTail (("  # ").data ++ m.ref) =
              some ([' ', ' '], some ('#' :: ' ' :: m.ref)) := by
            have hshape : ("  # ").data ++ m.ref = [' ', ' '] ++ '#' :: (' ' :: m.ref) := rfl
            rw [hshape]
            exact parseTail_comment (by decide)
          have hbuild := parseShaLine_build hU hR hs40 hshex hT2
          rw [processLine_sha_annotated hbuild (commentBare_synth hrefne hrefns)]
          exact ⟨rfl, rfl⟩
        · have hcsome : ∃ cs, m.comment = some ('#' :: cs) := by
            obtain ⟨-, -, hcshape⟩ := parseTail_sound hT
            rcases hcshape with hcn | hcs
            · rw [hcn] at hce
              exact absurd rfl hce
            · exact hcs
          obtain ⟨cs, hcseq⟩ := hcsome
          rw [if_neg hce, hcseq]
          simp only [Option.getD_some]
          have hT2 : parseTail ('#' :: cs) = some ([], some ('#' :: cs)) := by
            have hshape : ('#' :: cs : List Char) = ([] : List Char) ++ '#' :: cs := rfl
            rw [hshape]
            exact parseTail_comment (by decide)
          have hbuild := parseShaLine_build hU hR hs40 hshex hT2
          have hbfalse : commentBare (some ('#' :: cs)) = false := by
            simp only [lineNoBareVersionComment, hm, hvm, hcseq] at hnb
            simpa using hnb
          rw [processLine_sha_annotated hbuild hbfalse]
          exact ⟨rfl, rfl⟩
      | none =>
        rw [processLine_version_none hm hvm hs]
        rw [processLine_version_none hm hvm hs]
        exact ⟨rfl, rfl⟩
    | none =>
      rw [processLine_nomatch hm hvm]
      rw [processLine_nomatch hm hvm]
      exact ⟨rfl, rfl⟩

theorem processLine_no_newline (svc : GitHubService)
    (hsha : shasWellFormed svc) (hlbl : labelsWellFormed svc)
    (line : List Char) (hl : '\n' ∉ line) : '\n' ∉ (processLine svc line).1 := by
  cases hm : parseShaLine line with
  | some m =>
    by_cases hb : commentBare m.comment = true
    · cases hv : (get_version_for_commit_sha svc m.repo m.ref).1 with
      | some version =>
        rw [processLine_sha_bare_some hm hb hv]
        obtain ⟨hv1, hv2⟩ := hlbl _ _ _ hv
        obtain ⟨hline, -, -, -, -⟩ := parseShaLine_sound hm
        intro hmem
        rcases List.mem_append.mp hmem with h1 | h1
        · exact hl (by rw [hline]; exact List.mem_append_left _ h1)
        · rcases List.mem_cons.mp h1 with h2 | h2
          · exact absurd h2 (by decide)
          · rcases List.mem_append.mp h2 with h3 | h3
            · rcases List.mem_append.mp h3 with h4 | h4
              · refine hl ?_
                rw [hline]
                refine List.mem_append_right _ (List.mem_cons_of_mem _ ?_)
                exact List.mem_append_left _ (List.mem_append_left _ h4)
              · exact absurd h4 (by decide)
            · exact absurd (List.all_eq_true.mp hv2 _ h3) (by decide)
      | none =>
        rw [processLine_sha_bare_none hm hb hv]
        exact hl
    · rw [processLine_sha_annotated hm (Bool.eq_false_iff.mpr hb)]
      exact hl
  | none =>
    cases hvm : parseVersionLine line with
    | some m =>
      cases hs : (get_commit_sha_for_tag svc m.repo m.ref).1 with
      | some sha =>
        rw [processLine_version_some hm hvm hs]
        obtain ⟨-, hshex⟩ := hsha _ _ _ hs
        obtain ⟨hline, -, hrefvc, -, hcshape⟩ := parseVersionLine_sound hvm
        intro hmem
        rcases List.mem_append.mp hmem with h1 | h1
        · exact hl (by rw [hline]; exact List.mem_append_left _ h1)
        · rcases List.mem_cons.mp h1 with h2 | h2
          · exact absurd h2 (by decide)
          · rcases List.mem_append.mp h2 with h3 | h3
            · exact absurd (List.all_eq_true.mp hshex _ h3) (by decide)
            · by_cases hce : (m.comment.getD []).isEmpty = true
              · rw [if_pos hce] at h3
                rcases List.mem_append.mp h3 with h4 | h4
                · exact absurd h4 (by decide)
                · exact absurd (List.all_eq_true.mp hrefvc _ h4) (by decide)
              · rw [if_neg hce] at h3
                refine hl ?_
                rw [hline]
                refine List.mem_append_right _ (List.mem_cons_of_mem _ ?_)
                exact List.mem_append_right _ h3
      | none =>
        rw [processLine_version_none hm hvm hs]
        exact hl
    | none =>
      rw [processLine_nomatch hm hvm]
      exact hl

theorem count_changed_eq_diff (svc : GitHubService)
    (hsha : shasWellFormed svc) (hlbl : labelsWellFormed svc)
    (ls : List (List Char)) :
    ((ls.map (processLine svc)).filter (fun o => o.2.1)).length =
      (ls.zip (ls.map (fun l => (processLine svc l).1))).countP
        (fun p => !(p.1 == p.2)) := by
  induction ls with
  | nil => rfl
  | cons l ls ih =>
    simp only [List.map_cons, List.filter_cons, List.zip_cons_cons, List.countP_cons]
    obtain ⟨h1, h2⟩ := processLine_flag_truthful svc hsha hlbl l
    by_cases hch : (processLine svc l).2.1 = true
    · have hne : (l == (processLine svc l).1) = false := by
        have := h1 hch
        exact beq_eq_false_iff_ne.mpr fun he => this he.symm
      rw [hch, hne]
      simp only [if_true, Bool.not_false, if_pos rfl, List.length_cons]
      omega
    · have hcf : (processLine svc l).2.1 = false := Bool.eq_false_iff.mpr hch
      have heq : (l == (processLine svc l).1) = true := by
        rw [h2 hcf]
        exact beq_self_eq_true l
      rw [hcf, heq]
      simp only [Bool.not_true]
      rw [if_neg Bool.false_ne_true, if_neg Bool.false_ne_true]
      omega

theorem pwf_second_run_noop (svc : GitHubService) (content : List Char)
    (hsha : shasWellFormed svc) (hlbl : labelsWellFormed svc)
    (hnb : noBareVersionComments content = true) :
    process_workflow_file svc (process_workflow_file svc content).1 =
      ((process_workflow_file svc content).1, 0) := by
  have hnb2 : ∀ l ∈ splitChar '\n' content, lineNoBareVersionComment l = true :=
    List.all_eq_true.mp hnb
  have hsr : ∀ l ∈ splitChar '\n' content,
      (processLine svc (processLine svc l).1).1 = (processLine svc l).1 ∧
        (processLine svc (processLine svc l).1).2.1 = false :=
    fun l hl => processLine_second_run svc hsha hlbl l (hnb2 l hl)
  have hnonl : ∀ x ∈ (splitChar '\n' content).map (fun l => (processLine svc l).1),
      '\n' ∉ x := by
    intro x hx
    obtain ⟨l, hl, rfl⟩ := List.mem_map.mp hx
    exact processLine_no_newline svc hsha hlbl l (mem_splitChar_not_sep l hl)
  have hne : (splitChar '\n' content).map (fun l => (processLine svc l).1) ≠ [] := by
    intro hh
    exact splitChar_ne_nil '\n' content (by simpa using hh)
  have hsplit := splitChar_joinChar hnonl hne
  have hmapid : ∀ (xs : List (List Char)), (∀ x ∈ xs, (processLine svc x).1 = x) →
      xs.map (fun x => (processLine svc x).1) = xs := by
    intro xs
    induction xs with
    | nil => intro _; rfl
    | cons a as iha =>
      intro hall
      simp only [List.map_cons]
      rw [hall a (List.mem_cons_self a as),
        iha (fun x hx => hall x (List.mem_cons_of_mem a hx))]
  have hid : ((splitChar '\n' content).map (fun l => (processLine svc l).1)).map
      (fun x => (processLine svc x).1) =
      (splitChar '\n' content).map (fun l => (processLine svc l).1) := by
    refine hmapid _ fun x hx => ?_
    obtain ⟨l, hl, rfl⟩ := List.mem_map.mp hx
    exact (hsr l hl).1
  have hfilter : (((splitChar '\n' content).map (fun l => (processLine svc l).1)).map
      (processLine svc)).filter (fun o => o.2.1) = [] := by
    rw [List.filter_eq_nil]
    intro o ho
    obtain ⟨x, hx, rfl⟩ := List.mem_map.mp ho
    obtain ⟨l, hl, rfl⟩ := List.mem_map.mp hx
    rw [(hsr l hl).2]
    exact Bool.false_ne_true
  have hcomp : ∀ xs : List (List Char),
      xs.map ((fun (o : List Char × Bool × List Call) => o.1) ∘ processLine svc) =
        xs.map (fun l => (processLine svc l).1) := fun xs => rfl
  simp only [process_workflow_file, List.map_map]
  rw [hcomp, hcomp, hsplit, hid, hfilter]
  rfl

/-! ## Results of the concrete services -/

theorem selectBest_mem {xs : List (List Char)} {v : List Char}
    (h : selectBest xs = some v) : v ∈ xs := by
  cases xs with
  | nil => cases h
  | cons x t =>
    obtain ⟨hmem, -⟩ := foldl_selStep_spec x t
    have hv := Option.some.inj h
    rw [← hv]
    rcases hmem with heq | hm
    · rw [heq]
      exact List.mem_cons_self _ _
    · exact List.mem_cons_of_mem _ hm

theorem gv_result_mem {svc : GitHubService} {repo sha v : List Char}
    (h : (get_version_for_commit_sha svc repo sha).1 = some v) :
    ∃ orp tags, ownerRepo repo = some orp ∧ svc.tagsList orp = some tags ∧
      v ∈ (collectMatching svc orp sha tags).1 := by
  simp only [get_version_for_commit_sha] at h
  split at h
  next => cases h
  next orp horp =>
    split at h
    next => cases h
    next tags htags =>
      split at h
      next hnil => cases h
      next m0 ms hcons =>
        split at h
        next v' hsel =>
          simp only [Option.some.injEq] at h
          subst h
          refine ⟨orp, tags, horp, htags, ?_⟩
          rw [hcons]
          have := selectBest_mem hsel
          rw [hcons] at this
          exact List.mem_of_mem_filter this
        next hsel =>
          simp only [Option.some.injEq] at h
          subst h
          refine ⟨orp, tags, horp, htags, ?_⟩
          rw [hcons]
          exact List.mem_cons_self _ _

theorem svcNone_gc (repo tag : List Char) :
    (get_commit_sha_for_tag svcNone repo tag).1 = none := by
  unfold get_commit_sha_for_tag
  cases ho : ownerRepo repo with
  | none => rfl
  | some orp => rfl

theorem svcNone_gv (repo sha : List Char) :
    (get_version_for_commit_sha svcNone repo sha).1 = none := by
  unfold get_version_for_commit_sha
  cases ho : ownerRepo repo with
  | none => rfl
  | some orp => rfl

theorem svcNone_shas : shasWellFormed svcNone := by
  intro repo tag s h
  rw [svcNone_gc] at h
  cases h

theorem svcNone_labels : labelsWellFormed svcNone := by
  intro repo sha v h
  rw [svcNone_gv] at h
  cases h

theorem svcDemo_gc (repo tag : List Char) :
    (get_commit_sha_for_tag svcDemo repo tag).1 = none ∨
      (get_commit_sha_for_tag svcDemo repo tag).1 = some shaA := by
  cases ho : ownerRepo repo with
  | none =>
    left
    simp only [get_commit_sha_for_tag, ho]
  | some orp =>
    by_cases hc : orp = ("a/b").data ∧ tag = ("v1").data
    · right
      have ht : svcDemo.tagRef orp tag = some (shaA, ("commit").data) := by
        simp only [svcDemo]
        rw [if_pos hc]
      simp only [get_commit_sha_for_tag, ho, ht]
      rw [if_neg (by decide)]
    · left
      have ht : svcDemo.tagRef orp tag = none := by
        simp only [svcDemo]
        rw [if_neg hc]
      simp only [get_commit_sha_for_tag, ho, ht]

theorem svcDemo_shas : shasWellFormed svcDemo := by
  intro repo tag s h
  rcases svcDemo_gc repo tag with hg | hg
  · rw [hg] at h
    cases h
  · rw [hg] at h
    have hs := Option.some.inj h
    rw [← hs]
    exact ⟨by decide, by decide⟩

theorem svcDemo_labels : labelsWellFormed svcDemo := by
  intro repo sha v h
  obtain ⟨orp, tags, ho, hl, hmem⟩ := gv_result_mem h
  by_cases hc : orp = ("a/b").data
  · have ht : svcDemo.tagsList orp =
        some [⟨("refs/tags/v1").data, shaA, ("commit").data⟩] := by
      simp only [svcDemo]
      rw [if_pos hc]
    rw [ht] at hl
    have htags := Option.some.inj hl
    rw [← htags] at hmem
    have hcm : (collectMatching svcDemo orp sha
        [⟨("refs/tags/v1").data, shaA, ("commit").data⟩]).1 =
        if shaA = sha then [("v1").data] else [] := rfl
    rw [hcm] at hmem
    by_cases hs2 : shaA = sha
    · rw [if_pos hs2] at hmem
      have hv := List.mem_singleton.mp hmem
      rw [hv]
      exact ⟨by decide, by decide⟩
    · rw [if_neg hs2] at hmem
      cases hmem
  · have ht : svcDemo.tagsList orp = none := by
      simp only [svcDemo]
      rw [if_neg hc]
    rw [ht] at hl
    cases hl

/-! ## Claim theorems -/

/-- C1 counterexample: on the line ` uses: a/b@v1 #` the first run resolves
every reference it attempts and pins the line, preserving its bare comment
verbatim; the second run then treats the pinned line's bare comment as
missing, queries the label resolver and changes the line again, so the
second run's text differs and its change count is 1, not 0. -/
theorem second_run_changes_bare_comment_line :
    allResolutionsOk svcDemo ((" uses: a/b@v1 #").data) = true ∧
      (process_workflow_file svcDemo
          (process_workflow_file svcDemo ((" uses: a/b@v1 #").data)).1).2 = 1 ∧
      (process_workflow_file svcDemo
          (process_workflow_file svcDemo ((" uses: a/b@v1 #").data)).1).1 ≠
        (process_workflow_file svcDemo ((" uses: a/b@v1 #").data)).1 := by
  exact ⟨by decide, by decide, by decide⟩

/-- C1 (amended): running the rewriter a second time on the first run's
output yields the same text and a change count of zero, for all inputs where
the first run resolved every reference it attempted, provided additionally
that no version-tag line of the input carries a bare trailing comment (a `#`
followed only by whitespace) and the service returns 40-lowercase-hex commit
identifiers and whitespace-free nonempty labels.  In particular a line of
the form `@<40-hex>  # <label>` is never modified again. -/
theorem second_run_is_noop (svc : GitHubService) (content : List Char)
    (hsha : shasWellFormed svc) (hlbl : labelsWellFormed svc)
    (hok : allResolutionsOk svc content = true)
    (hnb : noBareVersionComments content = true) :
    process_workflow_file svc (process_workflow_file svc content).1 =
      ((process_workflow_file svc content).1, 0) :=
  pwf_second_run_noop svc content hsha hlbl hnb

/-- C1 witness: the amended theorem applied to `svcDemo` and the
single-line file ` uses: a/b@v1`. -/
theorem second_run_is_noop_witness :
    shasWellFormed svcDemo ∧ labelsWellFormed svcDemo ∧
      allResolutionsOk svcDemo ((" uses: a/b@v1").data) = true ∧
      noBareVersionComments ((" uses: a/b@v1").data) = true ∧
      process_workflow_file svcDemo
          (process_workflow_file svcDemo ((" uses: a/b@v1").data)).1 =
        ((process_workflow_file svcDemo ((" uses: a/b@v1").data)).1, 0) :=
  ⟨svcDemo_shas, svcDemo_labels, by decide, by decide,
    second_run_is_noop svcDemo ((" uses: a/b@v1").data) svcDemo_shas svcDemo_labels
      (by decide) (by decide)⟩

/-- C2: when the candidate labels pointing at a commit include
version-pattern labels, the label resolver returns one of them that has the
fewest dot-separated components, breaking ties by the lexicographically
smallest string. -/
theorem label_tiebreak_min (svc : GitHubService) (repo sha orp : List Char)
    (tags : List TagEntry) (ho : ownerRepo repo = some orp)
    (hl : svc.tagsList orp = some tags) (vt : List (List Char))
    (hvt : vt = ((collectMatching svc orp sha tags).1).filter isVersionTag)
    (hne : vt ≠ []) :
    ∃ v, (get_version_for_commit_sha svc repo sha).1 = some v ∧ v ∈ vt ∧
      (∀ t ∈ vt, numComponents v ≤ numComponents t) ∧
      (∀ t ∈ vt, numComponents t = numComponents v → lexLt t v = false) := by
  subst hvt
  cases hmc : (collectMatching svc orp sha tags).1 with
  | nil =>
    rw [hmc] at hne
    exact absurd rfl hne
  | cons m0 ms =>
    rw [hmc] at hne
    cases hfil : (m0 :: ms).filter isVersionTag with
    | nil =>
      rw [hfil] at hne
      exact absurd rfl hne
    | cons v0 vs =>
      have hsb : selectBest ((m0 :: ms).filter isVersionTag) =
          some (vs.foldl selStep v0) := by
        rw [hfil]
        rfl
      have hres : (get_version_for_commit_sha svc repo sha).1 =
          some (vs.foldl selStep v0) := by
        simp only [get_version_for_commit_sha, ho, hl, hmc, hsb]
      obtain ⟨hmem, hmin⟩ := foldl_selStep_spec v0 vs
      refine ⟨vs.foldl selStep v0, hres, ?_, ?_, ?_⟩
      · rcases hmem with heq | hm
        · rw [heq]
          exact List.mem_cons_self _ _
        · exact List.mem_cons_of_mem _ hm
      · intro t ht
        have hkey := hmin t (by
          rcases List.mem_cons.mp ht with h | h
          · exact Or.inl h
          · exact Or.inr h)
        simp only [keyLt] at hkey
        by_cases hlt : numComponents t < numComponents (vs.foldl selStep v0)
        · rw [if_pos hlt] at hkey
          cases hkey
        · omega
      · intro t ht htc
        have hkey := hmin t (by
          rcases List.mem_cons.mp ht with h | h
          · exact Or.inl h
          · exact Or.inr h)
        simp only [keyLt] at hkey
        have hnlt : ¬ numComponents t < numComponents (vs.foldl selStep v0) := by omega
        rw [if_neg hnlt, if_pos htc] at hkey
        exact hkey

/-- C2 witness: with candidates `v4.0.0`, `v4`, `v4.0` all pointing at the
same commit, the resolver returns `v4`. -/
theorem label_tiebreak_min_witness :
    (get_version_for_commit_sha svcTags (("a/b/c").data) shaA).1 =
        some (("v4").data) ∧
      (∃ v, (get_version_for_commit_sha svcTags (("a/b/c").data) shaA).1 = some v ∧
        v ∈ [("v4.0.0").data, ("v4").data, ("v4.0").data] ∧
        (∀ t ∈ [("v4.0.0").data, ("v4").data, ("v4.0").data],
          numComponents v ≤ numComponents t) ∧
        (∀ t ∈ [("v4.0.0").data, ("v4").data, ("v4.0").data],
          numComponents t = numComponents v → lexLt t v = false)) :=
  ⟨by decide,
    label_tiebreak_min svcTags (("a/b/c").data) shaA (("a/b").data)
      [⟨("refs/tags/v4.0.0").data, shaA, ("commit").data⟩,
        ⟨("refs/tags/v4").data, shaA, ("commit").data⟩,
        ⟨("refs/tags/v4.0").data, shaA, ("commit").data⟩]
      (by decide) (by decide)
      [("v4.0.0").data, ("v4").data, ("v4.0").data] (by decide) (by decide)⟩

theorem parseTail_head {t w : List Char} {c : Option (List Char)}
    (h : parseTail t = some (w, c)) :
    ∀ cc, t.head? = some cc → isSpace cc = true ∨ cc = '#' := by
  obtain ⟨ht, hw, hc⟩ := parseTail_sound h
  intro cc hcc
  subst ht
  cases w with
  | nil =>
    rcases hc with rfl | ⟨cs, rfl⟩
    · simp at hcc
    · simp only [List.nil_append, List.head?_cons, Option.getD_some,
        Option.some.injEq] at hcc
      exact Or.inr hcc.symm
  | cons w0 ws =>
    left
    simp only [List.cons_append, List.head?_cons, Option.some.injEq] at hcc
    subst hcc
    exact List.all_eq_true.mp hw w0 (List.mem_cons_self _ _)

/-- C3 counterexample: pinning the version-tag line ` uses: a/b@v1  # x`,
which carries a real trailing comment, yields `prefix a/b@<sha>#x`: the
whitespace that separated the ref from the comment is dropped, so the
comment's separation from the ref is not preserved. -/
theorem rewrite_drops_comment_separation :
    (processLine svcDemo ((" uses: a/b@v1  # x").data)).1 =
        (" uses: a/b@").data ++ shaA ++ ("# x").data ∧
      (processLine svcDemo ((" uses: a/b@v1  # x").data)).1 ≠
        (" uses: a/b@").data ++ shaA ++ ("  # x").data := by
  exact ⟨by decide, by decide⟩

/-- C3 (amended): on a version-tag line carrying a trailing comment that the
resolver pins, the output keeps the leading prefix and repository slug
exactly and keeps the comment text itself verbatim, but the whitespace
between the ref and the comment is dropped: the output is exactly
`prefix ++ repo ++ "@" ++ sha ++ comment`. -/
theorem rewrite_preserves_prefix_and_comment_text (svc : GitHubService)
    (line : List Char) (m : LineMatch) (c : List Char)
    (hn : parseShaLine line = none) (hm : parseVersionLine line = some m)
    (hc : m.comment = some c) (sha : List Char)
    (hres : (get_commit_sha_for_tag svc m.repo m.ref).1 = some sha) :
    line = m.pre ++ m.repo ++ '@' :: (m.ref ++ m.ws ++ c) ∧
      processLine svc line =
        (m.pre ++ m.repo ++ '@' :: (sha ++ c), true,
          [Call.refResolve m.repo m.ref]) := by
  obtain ⟨hline, hne, hvc, hws, hcshape⟩ := parseVersionLine_sound hm
  have hcne : c ≠ [] := by
    rcases hcshape with h | ⟨cs, h⟩
    · rw [hc] at h
      exact Option.noConfusion h
    · rw [hc] at h
      injection h with h2
      subst h2
      exact List.cons_ne_nil _ _
  constructor
  · rw [hline, hc]
    rfl
  · rw [processLine_version_some hn hm hres, hc]
    have hie : ¬((some c).getD []).isEmpty = true := by
      rw [Option.getD_some]
      exact fun h => hcne (List.isEmpty_iff.mp h)
    rw [if_neg hie, Option.getD_some]

/-- C3 witness: the amended theorem at the line ` uses: a/b@v1  # x` with
`svcDemo` resolving `v1` to forty `a`s. -/
theorem rewrite_preserves_prefix_and_comment_text_witness :
    parseShaLine ((" uses: a/b@v1  # x").data) = none ∧
      parseVersionLine ((" uses: a/b@v1  # x").data) =
        some ⟨(" uses: ").data, ("a/b").data, ("v1").data, ("  ").data,
          some (("# x").data)⟩ ∧
      (get_commit_sha_for_tag svcDemo (("a/b").data) (("v1").data)).1 = some shaA ∧
      ((" uses: a/b@v1  # x").data =
          (" uses: ").data ++ ("a/b").data ++ '@' ::
            (("v1").data ++ ("  ").data ++ ("# x").data) ∧
        processLine svcDemo ((" uses: a/b@v1  # x").data) =
          ((" uses: ").data ++ ("a/b").data ++ '@' :: (shaA ++ ("# x").data), true,
            [Call.refResolve (("a/b").data) (("v1").data)])) :=
  ⟨by decide, by decide, by decide,
    rewrite_preserves_prefix_and_comment_text svcDemo ((" uses: a/b@v1  # x").data)
      ⟨(" uses: ").data, ("a/b").data, ("v1").data, ("  ").data,
        some (("# x").data)⟩
      (("# x").data) (by decide) (by decide) rfl shaA (by decide)⟩

/-- C4 counterexample: when the second lookup that dereferences an annotated
tag object answers non-successfully, the resolver does not treat it as
NotFound: it returns the tag object's own identifier, and the line is
rewritten to that identifier with `changed = true`. -/
theorem deref_failure_returns_tag_object_id :
    svcDeref.tagObj (("a/b").data) tagObjId = none ∧
      (get_commit_sha_for_tag svcDeref (("a/b").data) (("v1").data)).1 =
        some tagObjId ∧
      (processLine svcDeref ((" uses: a/b@v1").data)).1 =
        (" uses: a/b@").data ++ tagObjId ++ ("  # v1").data ∧
      (processLine svcDeref ((" uses: a/b@v1").data)).2.1 = true := by
  exact ⟨by decide, by decide, by decide, by decide⟩

/-- C4 (amended): a non-success response on the first lookup is treated as
NotFound (the resolver returns no commit identifier), but a non-success
response on the second, annotated-tag-dereferencing lookup is not: the
resolver then returns the identifier of the annotated tag object itself. -/
theorem lookup_failure_behavior (svc : GitHubService) (repo tag orp sha : List Char)
    (ho : ownerRepo repo = some orp) :
    (svc.tagRef orp tag = none →
      get_commit_sha_for_tag svc repo tag = (none, [Request.refsTag orp tag])) ∧
      (svc.tagRef orp tag = some (sha, ("tag").data) → svc.tagObj orp sha = none →
        get_commit_sha_for_tag svc repo tag =
          (some sha, [Request.refsTag orp tag, Request.tagsObj orp sha])) := by
  constructor
  · intro h1
    simp only [get_commit_sha_for_tag, ho, h1]
  · intro h1 h2
    simp only [get_commit_sha_for_tag, ho, h1, h2]
    rw [if_pos trivial]

/-- C4 witness: the failure-behavior theorem at `svcDeref` on slug `a/b`,
for both the missing tag `nope` and the annotated tag `v1` whose
dereferencing lookup is non-successful. -/
theorem lookup_failure_behavior_witness :
    ownerRepo (("a/b").data) = some (("a/b").data) ∧
      (svcDeref.tagRef (("a/b").data) (("nope").data) = none ∧
        get_commit_sha_for_tag svcDeref (("a/b").data) (("nope").data) =
          (none, [Request.refsTag (("a/b").data) (("nope").data)])) ∧
      (svcDeref.tagRef (("a/b").data) (("v1").data) =
          some (tagObjId, ("tag").data) ∧
        svcDeref.tagObj (("a/b").data) tagObjId = none ∧
        get_commit_sha_for_tag svcDeref (("a/b").data) (("v1").data) =
          (some tagObjId, [Request.refsTag (("a/b").data) (("v1").data),
            Request.tagsObj (("a/b").data) tagObjId])) := by
  refine ⟨by decide, ⟨by decide, ?_⟩, ⟨by decide, by decide, ?_⟩⟩
  · exact (lookup_failure_behavior svcDeref (("a/b").data) (("nope").data)
      (("a/b").data) tagObjId (by decide)).1 (by decide)
  · exact (lookup_failure_behavior svcDeref (("a/b").data) (("v1").data)
      (("a/b").data) tagObjId (by decide)).2 (by decide) (by decide)

/-- C5 counterexample: the two patterns are not mutually exclusive: a line
whose ref is forty decimal digits (here forty `0`s) is matched by both the
pinned-commit pattern and the version-tag pattern. -/
theorem patterns_not_mutually_exclusive :
    (parseShaLine (("  uses: a/b@").data ++ shaZeros)).isSome = true ∧
      (parseVersionLine (("  uses: a/b@").data ++ shaZeros)).isSome = true := by
  exact ⟨by decide, by decide⟩

/-- C5 (amended): the two patterns overlap exactly on the lines whose ref is
forty decimal digits: whenever both match a line, they extract the same ref,
which has length forty and consists of digits only (so apart from that
degenerate shape the patterns are mutually exclusive; the sha branch runs
first and wins on it). -/
theorem pattern_overlap_all_digits (l : List Char) (m1 m2 : LineMatch)
    (h1 : parseShaLine l = some m1) (h2 : parseVersionLine l = some m2) :
    m2.ref = m1.ref ∧ m1.ref.length = 40 ∧ m1.ref.all Char.isDigit = true := by
  obtain ⟨r1, r2, r3, hU1, hR1, hS1, hT1⟩ := parseShaLine_inv h1
  obtain ⟨r1', r2', r3', hU2, hR2, hS2, hT2⟩ := parseVersionLine_inv h2
  rw [hU1] at hU2
  injection hU2 with hU2
  injection hU2 with hpre hr1
  subst hr1
  rw [hR1] at hR2
  injection hR2 with hR2
  injection hR2 with hrepo hr2
  subst hr2
  obtain ⟨he1, hlen, hhex⟩ := parseSha_sound hS1
  obtain ⟨he2, hne2, hvc2, -⟩ := parseVersionRef_inv hS2
  have he : m1.ref ++ r3 = m2.ref ++ r3' := by rw [← he1, ← he2]
  rcases Nat.lt_trichotomy m2.ref.length m1.ref.length with hlt | heq | hgt
  · exfalso
    have hdrop := congrArg (List.drop m2.ref.length) he
    rw [List.drop_left] at hdrop
    rw [List.drop_append_eq_append_drop] at hdrop
    have hsub : m2.ref.length - m1.ref.length = 0 := by omega
    rw [hsub, List.drop_zero] at hdrop
    cases hd : m1.ref.drop m2.ref.length with
    | nil =>
      have hl0 := congrArg List.length hd
      simp only [List.length_drop, List.length_nil] at hl0
      omega
    | cons cc ccs =>
      have hta := List.take_append_drop m2.ref.length m1.ref
      rw [hd] at hta
      have hmem : cc ∈ m1.ref := by
        rw [← hta]
        exact List.mem_append.mpr (Or.inr (List.mem_cons_self _ _))
      have hcchex : isHexLower cc = true := List.all_eq_true.mp hhex cc hmem
      have hhead : r3'.head? = some cc := by
        rw [← hdrop, hd]
        rfl
      rcases parseTail_head hT2 cc hhead with hsp | hhash
      · rw [space_not_hex hsp] at hcchex
        cases hcchex
      · subst hhash
        exact absurd hcchex (by decide)
  · have hrefeq : m2.ref = m1.ref := by
      have ht := congrArg (List.take m2.ref.length) he
      rw [List.take_left] at ht
      rw [heq, List.take_left] at ht
      exact ht.symm
    refine ⟨hrefeq, hlen, ?_⟩
    rw [List.all_eq_true]
    intro c hcmem
    have hx := List.all_eq_true.mp hhex c hcmem
    have hc2 : c ∈ m2.ref := by
      rw [hrefeq]
      exact hcmem
    have hv := List.all_eq_true.mp hvc2 c hc2
    exact hex_version_digit hx hv
  · exfalso
    have he' : m2.ref ++ r3' = m1.ref ++ r3 := he.symm
    have hdrop := congrArg (List.drop m1.ref.length) he'
    rw [List.drop_left] at hdrop
    rw [List.drop_append_eq_append_drop] at hdrop
    have hsub : m1.ref.length - m2.ref.length = 0 := by omega
    rw [hsub, List.drop_zero] at hdrop
    cases hd : m2.ref.drop m1.ref.length with
    | nil =>
      have hl0 := congrArg List.length hd
      simp only [List.length_drop, List.length_nil] at hl0
      omega
    | cons cc ccs =>
      have hta := List.take_append_drop m1.ref.length m2.ref
      rw [hd] at hta
      have hmem : cc ∈ m2.ref := by
        rw [← hta]
        exact List.mem_append.mpr (Or.inr (List.mem_cons_self _ _))
      have hccv : isVersionChar cc = true := List.all_eq_true.mp hvc2 cc hmem
      have hhead : r3.head? = some cc := by
        rw [← hdrop, hd]
        rfl
      rcases parseTail_head hT1 cc hhead with hsp | hhash
      · rw [versionChar_not_space hccv] at hsp
        cases hsp
      · subst hhash
        exact absurd hccv (by decide)

/-- C5 witness: the overlap theorem at the line `  uses: a/b@` followed by
forty `0`s, matched by both patterns with the same all-digit ref. -/
theorem pattern_overlap_all_digits_witness :
    parseShaLine (("  uses: a/b@").data ++ shaZeros) =
        some ⟨("  uses: ").data, ("a/b").data, shaZeros, [], none⟩ ∧
      parseVersionLine (("  uses: a/b@").data ++ shaZeros) =
        some ⟨("  uses: ").data, ("a/b").data, shaZeros, [], none⟩ ∧
      (shaZeros = shaZeros ∧ shaZeros.length = 40 ∧
        shaZeros.all Char.isDigit = true) :=
  ⟨by decide, by decide,
    pattern_overlap_all_digits (("  uses: a/b@").data ++ shaZeros)
      ⟨("  uses: ").data, ("a/b").data, shaZeros, [], none⟩
      ⟨("  uses: ").data, ("a/b").data, shaZeros, [], none⟩
      (by decide) (by decide)⟩

/-- C6: on the line `  uses: actions/checkout@v4`, when the reference
resolver returns a commit identifier, the rewriter replaces the ref with
that identifier and synthesizes the trailing comment `  # v4`, flagging the
line as changed. -/
theorem pin_checkout_v4_synthesizes_comment (svc : GitHubService) (s : List Char)
    (h40 : s.length = 40) (hhex : s.all isHexLower = true)
    (hres : (get_commit_sha_for_tag svc (("actions/checkout").data)
        (("v4").data)).1 = some s) :
    processLine svc (("  uses: actions/checkout@v4").data) =
      (("  uses: actions/checkout@").data ++ s ++ ("  # v4").data, true,
        [Call.refResolve (("actions/checkout").data) (("v4").data)]) := by
  have hn : parseShaLine (("  uses: actions/checkout@v4").data) = none := by decide
  have hm : parseVersionLine (("  uses: actions/checkout@v4").data) =
      some ⟨("  uses: ").data, ("actions/checkout").data, ("v4").data, [], none⟩ := by
    decide
  rw [processLine_version_some hn hm hres]
  rfl

/-- C6 witness: the theorem at `svcCheckout`, whose resolver answers forty
`a`s for `actions/checkout@v4`. -/
theorem pin_checkout_v4_synthesizes_comment_witness :
    shaA.length = 40 ∧ shaA.all isHexLower = true ∧
      (get_commit_sha_for_tag svcCheckout (("actions/checkout").data)
          (("v4").data)).1 = some shaA ∧
      processLine svcCheckout (("  uses: actions/checkout@v4").data) =
        (("  uses: actions/checkout@").data ++ shaA ++ ("  # v4").data, true,
          [Call.refResolve (("actions/checkout").data) (("v4").data)]) :=
  ⟨by decide, by decide, by decide,
    pin_checkout_v4_synthesizes_comment svcCheckout shaA (by decide) (by decide)
      (by decide)⟩

/-- C7: a line matched by the pinned-commit pattern whose trailing comment
strips to something other than the empty string or a lone `#` is returned
byte-identical, with `changed = false`, and no resolver is invoked for it. -/
theorem annotated_pinned_line_untouched (svc : GitHubService) (line : List Char)
    (m : LineMatch) (c : List Char)
    (hm : parseShaLine line = some m) (hc : m.comment = some c)
    (hs1 : pyStrip c ≠ []) (hs2 : pyStrip c ≠ ("#").data) :
    processLine svc line = (line, false, []) := by
  have h1 : (pyStrip c).isEmpty = false := by
    cases hps : pyStrip c with
    | nil => exact absurd hps hs1
    | cons a as => rfl
  have h2 : decide (pyStrip c = ("#").data) = false := decide_eq_false hs2
  have hb : commentBare m.comment = false := by
    rw [hc]
    simp [commentBare, h1, h2]
  exact processLine_sha_annotated hm hb

/-- C7 witness: the theorem at the line `  uses: a/b@` + forty `a`s +
`  # v4.1.0`, whose comment `# v4.1.0` is neither empty nor a bare `#`. -/
theorem annotated_pinned_line_untouched_witness :
    parseShaLine (("  uses: a/b@").data ++ shaA ++ ("  # v4.1.0").data) =
        some ⟨("  uses: ").data, ("a/b").data, shaA, ("  ").data,
          some (("# v4.1.0").data)⟩ ∧
      pyStrip (("# v4.1.0").data) ≠ [] ∧
      pyStrip (("# v4.1.0").data) ≠ ("#").data ∧
      processLine svcDemo (("  uses: a/b@").data ++ shaA ++ ("  # v4.1.0").data) =
        (("  uses: a/b@").data ++ shaA ++ ("  # v4.1.0").data, false, []) :=
  ⟨by decide, by decide, by decide,
    annotated_pinned_line_untouched svcDemo
      (("  uses: a/b@").data ++ shaA ++ ("  # v4.1.0").data)
      ⟨("  uses: ").data, ("a/b").data, shaA, ("  ").data,
        some (("# v4.1.0").data)⟩
      (("# v4.1.0").data) (by decide) rfl (by decide) (by decide)⟩

/-- C8: a line matched by the pinned-commit pattern whose trailing comment
is absent, whitespace-only or a bare `#` is treated as unannotated: the
rewriter invokes the label resolver for its repository and commit
identifier (and no other resolver). -/
theorem bare_comment_triggers_label_lookup (svc : GitHubService) (line : List Char)
    (m : LineMatch) (hm : parseShaLine line = some m)
    (hb : commentBare m.comment = true) :
    (processLine svc line).2.2 = [Call.labelResolve m.repo m.ref] := by
  cases hv : (get_version_for_commit_sha svc m.repo m.ref).1 with
  | some v =>
    rw [processLine_sha_bare_some hm hb hv]
  | none =>
    rw [processLine_sha_bare_none hm hb hv]

/-- C8 witness: the theorem at the line `  uses: a/b@` + forty `a`s + `  #`,
whose bare comment triggers a label lookup for `a/b` at that identifier. -/
theorem bare_comment_triggers_label_lookup_witness :
    parseShaLine (("  uses: a/b@").data ++ shaA ++ ("  #").data) =
        some ⟨("  uses: ").data, ("a/b").data, shaA, ("  ").data,
          some (("#").data)⟩ ∧
      commentBare (some (("#").data)) = true ∧
      (processLine svcNone (("  uses: a/b@").data ++ shaA ++ ("  #").data)).2.2 =
        [Call.labelResolve (("a/b").data) shaA] :=
  ⟨by decide, by decide,
    bare_comment_triggers_label_lookup svcNone
      (("  uses: a/b@").data ++ shaA ++ ("  #").data)
      ⟨("  uses: ").data, ("a/b").data, shaA, ("  ").data, some (("#").data)⟩
      (by decide) (by decide)⟩

/-- C9: for a repository slug with fewer than two `/`-separated segments,
both resolvers return no result and issue no remote request, and the line
rewriter leaves a line carrying such a slug unchanged in both branches. -/
theorem invalid_slug_treated_as_not_found (svc : GitHubService) (repo : List Char)
    (h : (splitChar '/' repo).length < 2) :
    (∀ tag, get_commit_sha_for_tag svc repo tag = (none, [])) ∧
      (∀ sha, get_version_for_commit_sha svc repo sha = (none, [])) ∧
      (∀ line m, parseShaLine line = none → parseVersionLine line = some m →
        m.repo = repo →
        processLine svc line = (line, false, [Call.refResolve repo m.ref])) ∧
      (∀ line m, parseShaLine line = some m → m.repo = repo →
        commentBare m.comment = true →
        processLine svc line = (line, false, [Call.labelResolve repo m.ref])) := by
  have ho : ownerRepo repo = none := by
    unfold ownerRepo
    cases hs : splitChar '/' repo with
    | nil => rfl
    | cons p0 ps =>
      cases ps with
      | nil => rfl
      | cons p1 ps' =>
        exfalso
        rw [hs] at h
        simp only [List.length_cons] at h
        omega
  refine ⟨fun tag => ?_, fun sha => ?_,
    fun line m hn hm hrepo => ?_, fun line m hmm hrepo hb => ?_⟩
  · simp only [get_commit_sha_for_tag, ho]
  · simp only [get_version_for_commit_sha, ho]
  · have hs0 : (get_commit_sha_for_tag svc m.repo m.ref).1 = none := by
      rw [hrepo]
      simp only [get_commit_sha_for_tag, ho]
    rw [processLine_version_none hn hm hs0, hrepo]
  · have hv0 : (get_version_for_commit_sha svc m.repo m.ref).1 = none := by
      rw [hrepo]
      simp only [get_version_for_commit_sha, ho]
    rw [processLine_sha_bare_none hmm hb hv0, hrepo]

/-- C9 witness: the theorem at the one-segment slug `abc`. -/
theorem invalid_slug_treated_as_not_found_witness :
    (splitChar '/' (("abc").data)).length < 2 ∧
      ((∀ tag, get_commit_sha_for_tag svcDemo (("abc").data) tag = (none, [])) ∧
        (∀ sha, get_version_for_commit_sha svcDemo (("abc").data) sha = (none, [])) ∧
        (∀ line m, parseShaLine line = none → parseVersionLine line = some m →
          m.repo = ("abc").data →
          processLine svcDemo line =
            (line, false, [Call.refResolve (("abc").data) m.ref])) ∧
        (∀ line m, parseShaLine line = some m → m.repo = ("abc").data →
          commentBare m.comment = true →
          processLine svcDemo line =
            (line, false, [Call.labelResolve (("abc").data) m.ref]))) :=
  ⟨by decide, invalid_slug_treated_as_not_found svcDemo (("abc").data) (by decide)⟩

/-- C10: the change flag is truthful: a line counted as changed is rewritten
to a different string and a line not counted is returned byte-identical,
and the file processor's change count equals the number of line positions
at which output and input differ — provided the service's successful
answers are well-formed (40 lowercase hex commit identifiers, nonempty
whitespace-free labels). -/
theorem change_flag_truthful (svc : GitHubService) (content : List Char)
    (hsha : shasWellFormed svc) (hlbl : labelsWellFormed svc) :
    (∀ line, ((processLine svc line).2.1 = true → (processLine svc line).1 ≠ line) ∧
      ((processLine svc line).2.1 = false → (processLine svc line).1 = line)) ∧
      (process_workflow_file svc content).2 =
        ((splitChar '\n' content).zip
            ((splitChar '\n' content).map (fun l => (processLine svc l).1))).countP
          (fun p => !(p.1 == p.2)) := by
  refine ⟨fun line => processLine_flag_truthful svc hsha hlbl line, ?_⟩
  have h1 : (process_workflow_file svc content).2 =
      (((splitChar '\n' content).map (processLine svc)).filter
        (fun o => o.2.1)).length := rfl
  rw [h1, count_changed_eq_diff svc hsha hlbl (splitChar '\n' content)]

/-- C10 witness: the theorem at the empty service (every lookup
non-successful) and the one-line file ` uses: a/b@v1`. -/
theorem change_flag_truthful_witness :
    shasWellFormed svcNone ∧ labelsWellFormed svcNone ∧
      ((∀ line, ((processLine svcNone line).2.1 = true →
          (processLine svcNone line).1 ≠ line) ∧
        ((processLine svcNone line).2.1 = false →
          (processLine svcNone line).1 = line)) ∧
        (process_workflow_file svcNone ((" uses: a/b@v1").data)).2 =
          ((splitChar '\n' ((" uses: a/b@v1").data)).zip
              ((splitChar '\n' ((" uses: a/b@v1").data)).map
                (fun l => (processLine svcNone l).1))).countP
            (fun p => !(p.1 == p.2))) :=
  ⟨svcNone_shas, svcNone_labels,
    change_flag_truthful svcNone ((" uses: a/b@v1").data) svcNone_shas svcNone_labels⟩
